import Mathlib

/-!
Verification development for the vinyl-record tooling repository.

We shallowly embed the decision logic of two pipelines:
  * `records/tools/ad_generator/ad_generator.py` — genre resolution,
    per-artist majority aggregation, composite-genre splitting, tiny-genre
    merging and square grid planning;
  * `records/tools/backup/store/store.py` and
    `records/tools/backup/store/export_price_sheet.py` — price fallback
    chain and the artist/title grouping of the price sheet.

Python strings are modelled as Lean `String`s, operated on through their
underlying character lists; Python floats arising from parsing decimal
currency strings are modelled exactly as rationals (`ℚ`); Python `dict`s
(insertion ordered, unique keys) are modelled as association lists.
-/

/-! ### Character/string primitives (models of the Python `str` methods used) -/

/-- Model of Python `str.strip`: drop leading and trailing whitespace. -/
def trimChars (cs : List Char) : List Char :=
  ((cs.dropWhile Char.isWhitespace).reverse.dropWhile Char.isWhitespace).reverse

/-- Model of `str.strip` lifted to `String`. -/
def strTrim (s : String) : String := String.mk (trimChars s.data)

/-- Model of Python `str.lower` (ASCII letters, which is all the code relies on). -/
def strLower (s : String) : String := String.mk (s.data.map Char.toLower)

/-- Model of `str.replace("$", "")`: remove every dollar sign. -/
def replaceDollar (s : String) : String :=
  String.mk (s.data.filter (fun c => !(c == '$')))

/-- Substring test on character lists (model of Python's `needle in haystack`). -/
def containsAux (needle : List Char) : List Char → Bool
  | [] => needle.isEmpty
  | c :: rest => needle.isPrefixOf (c :: rest) || containsAux needle rest

/-- Model of Python `sub in s` for strings. -/
def containsSub (s sub : String) : Bool := containsAux sub.data s.data

/-- Collapse each maximal run of whitespace into a single blank
(model of `re.sub(r"\s+", " ", x)`).  `prevWS` records whether the
previous character was part of a whitespace run. -/
def squeezeAux : List Char → Bool → List Char
  | [], _ => []
  | c :: rest, prevWS =>
    if c.isWhitespace then
      if prevWS then squeezeAux rest true else ' ' :: squeezeAux rest true
    else c :: squeezeAux rest false

/-- Model of `re.sub(r"\s+", " ", s)` lifted to `String`. -/
def squeezeWS (s : String) : String := String.mk (squeezeAux s.data false)

/-- Split a character list into its maximal runs of non-blank characters
(model of Python `str.split()` on a string whose only whitespace is `' '`).
`cur` holds the current word, reversed. -/
def wordsAux : List Char → List Char → List (List Char)
  | [], cur => if cur.isEmpty then [] else [cur.reverse]
  | c :: rest, cur =>
    if c == ' ' then
      if cur.isEmpty then wordsAux rest [] else cur.reverse :: wordsAux rest []
    else wordsAux rest (c :: cur)

/-- Join words with a single separator character (model of `"_".join(parts)`). -/
def joinWith (sep : Char) : List (List Char) → List Char
  | [] => []
  | [w] => w
  | w :: ws => w ++ sep :: joinWith sep ws

/-! ### Decimal parsing and rounding (models of Python `float` and `round`) -/

/-- Numeric value of a digit list, most significant first. -/
def natOfDigits (cs : List Char) : ℕ :=
  cs.foldl (fun n c => 10 * n + (c.toNat - '0'.toNat)) 0

/-- Consume further digits of a digit group after at least one digit has
been read: more digits, or a single underscore that must sit between two
digits (CPython digit-group syntax).  Returns the digits read (underscores
removed) and the unconsumed remainder. -/
def digitsUAux : List Char → List Char × List Char
  | [] => ([], [])
  | c :: rest =>
    if c.isDigit then (c :: (digitsUAux rest).1, (digitsUAux rest).2)
    else if c == '_' then
      match rest with
      | d :: rest' =>
        if d.isDigit then (d :: (digitsUAux rest').1, (digitsUAux rest').2)
        else ([], c :: rest)
      | [] => ([], [c])
    else ([], c :: rest)

/-- Parse a CPython digit group (at least one digit, single underscores
allowed between digits): the digits with underscores removed, and the
remainder. -/
def parseDigitsU (cs : List Char) : Option (List Char × List Char) :=
  match cs with
  | c :: rest =>
    if c.isDigit then some (c :: (digitsUAux rest).1, (digitsUAux rest).2) else none
  | [] => none

/-- Consume the optional integer part of a float literal's mantissa. -/
def afterInt (cs : List Char) : List Char × List Char :=
  match parseDigitsU cs with
  | some (ds, rm) => (ds, rm)
  | none => ([], cs)

/-- Consume the optional `.` and fractional digits of a float literal's
mantissa. -/
def afterFrac (cs : List Char) : List Char × List Char :=
  match cs with
  | c :: r =>
    if c == '.' then
      match parseDigitsU r with
      | some (ds, rm) => (ds, rm)
      | none => ([], r)
    else ([], cs)
  | [] => ([], [])

/-- Parse the optional exponent of a float literal, which must consume the
whole remainder: empty means exponent `0`, else `e`/`E`, an optional sign
and a digit group ending the input. -/
def parseExp (cs : List Char) : Option ℤ :=
  match cs with
  | [] => some 0
  | c :: r =>
    if c == 'e' || c == 'E' then
      match r with
      | '+' :: r2 =>
        match parseDigitsU r2 with
        | some (ds, []) => some ((natOfDigits ds : ℤ))
        | _ => none
      | '-' :: r2 =>
        match parseDigitsU r2 with
        | some (ds, []) => some (-(natOfDigits ds : ℤ))
        | _ => none
      | _ =>
        match parseDigitsU r with
        | some (ds, []) => some ((natOfDigits ds : ℤ))
        | _ => none
    else none

/-- The exact value `intpart.frac * 10^e`, built as a single quotient. -/
def mantissaExpVal (ip fp : List Char) (e : ℤ) : ℚ :=
  if 0 ≤ e then
    Rat.divInt ((natOfDigits ip * 10 ^ fp.length + natOfDigits fp : ℕ) * 10 ^ e.toNat)
      (10 ^ fp.length)
  else
    Rat.divInt (natOfDigits ip * 10 ^ fp.length + natOfDigits fp : ℕ)
      (10 ^ fp.length * 10 ^ (-e).toNat)

/-- Parse an unsigned CPython float literal: an optional integer part, an
optional dot with an optional fractional part (at least one mantissa digit
overall), and an optional exponent ending the input. -/
def parseNumber (cs : List Char) : Option ℚ :=
  let ip := (afterInt cs).1
  let rest1 := (afterInt cs).2
  let fp := (afterFrac rest1).1
  let rest2 := (afterFrac rest1).2
  if ip.isEmpty && fp.isEmpty then none
  else
    match parseExp rest2 with
    | some e => some (mantissaExpVal ip fp e)
    | none => none

/-- Model of Python `float(s)` on finite float literals: optional
surrounding whitespace, an optional sign, a mantissa with single digit
underscores, and an optional exponent, the value represented exactly as a
rational (the double's rounding, and its overflow to `inf` on extreme
exponents, are abstracted by the exact value, consistently with the exact
treatment used throughout).  The non-finite specials `inf`/`infinity`/`nan`
have no finite rational value and are modelled as parse failures: a `nan`
median behaves like an absent one in `choose_price` (NaN compares below
zero's threshold), and on an `inf` price the program raises at `round`
rather than produce a listing, so no theorem below relies on their value. -/
def pyFloat (s : String) : Option ℚ :=
  match trimChars s.data with
  | '+' :: rest => parseNumber rest
  | '-' :: rest => (parseNumber rest).map Neg.neg
  | cs => parseNumber cs

/-- The characters a successful CPython `float` parse can consume: sign,
digits, the dot, the exponent marker, the digit underscore, and the letters
of the specials `inf`/`infinity`/`nan` in either case.  A character outside
this set — a comma, a currency letter — always defeats the parse. -/
def pyFloatChar (c : Char) : Bool :=
  c.isDigit || c == '.' || c == '+' || c == '-' || c == 'e' || c == 'E' || c == '_' ||
  c.toLower == 'i' || c.toLower == 'n' || c.toLower == 'f' || c.toLower == 'a' ||
  c.toLower == 't' || c.toLower == 'y'

/-- Model of Python `round(x)` on an exactly-represented value: round to the
nearest integer, ties to the even integer.  With `f = ⌊q⌋`, the fractional
part `q - f` equals `(q.num - f * q.den) / q.den`, so it is compared against
`1/2` by comparing `2 * (q.num - f * q.den)` against `q.den`. -/
def pyRound (q : ℚ) : ℤ :=
  let f := q.floor
  let r2 := 2 * (q.num - f * (q.den : ℤ))
  if r2 < (q.den : ℤ) then f
  else if (q.den : ℤ) < r2 then f + 1
  else if f % 2 = 0 then f else f + 1

/-- Model of Python's `a or b` on optional strings: `a` wins unless it is
absent or empty (falsy). -/
def pyOr (a b : Option String) : Option String :=
  match a with
  | some s => if s = "" then b else some s
  | none => b

/-! ### `records/tools/backup/store/store.py` — the price fallback chain -/

/-- The constant `DEFAULT_PRICE = 9`. -/
def DEFAULT_PRICE : ℤ := 9

/-- Model of `safe_float(val)`: `None` stays absent; otherwise strip whitespace,
delete dollar signs, treat the empty result as absent, and otherwise parse
with `float`, any parse failure again yielding absence. -/
def safe_float (val : Option String) : Option ℚ :=
  match val with
  | none => none
  | some v =>
    let v' := replaceDollar (strTrim v)
    if v' = "" then none else pyFloat v'

/-- A row of the pricing sheet, restricted to the keys `choose_price` reads.
`row.get(k)` is `none` when the key is missing. -/
structure PriceRow where
  median : Option String := none
  discogs_median : Option String := none
  median_price : Option String := none
  high_sold : Option String := none
  discogs_high : Option String := none
  high_price : Option String := none
deriving DecidableEq, Repr

/-- The value a price can take: an override is returned verbatim (whatever
string it is), computed prices are integers. -/
inductive PriceVal where
  | str (s : String)
  | int (n : ℤ)
deriving DecidableEq, Repr

/-- The chain `row.get("median") or row.get("discogs_median") or row.get("median_price")`. -/
def median_source (row : PriceRow) : Option String :=
  pyOr (pyOr row.median row.discogs_median) row.median_price

/-- The chain `row.get("high_sold") or row.get("discogs_high") or row.get("high_price")`. -/
def high_source (row : PriceRow) : Option String :=
  pyOr (pyOr row.high_sold row.discogs_high) row.high_price

/-- The tail of `choose_price` from the `high_val` lookup on: high-sold value
if it parses positive, else the default. -/
def choose_price_high (row : PriceRow) : PriceVal × String :=
  match safe_float (high_source row) with
  | some hv => if 0 < hv then (PriceVal.int (pyRound hv), "high_sold")
               else (PriceVal.int DEFAULT_PRICE, "default")
  | none => (PriceVal.int DEFAULT_PRICE, "default")

/-- Model of `choose_price(row, override_price)`: override verbatim when given, else
median when it parses positive, else high-sold, else the default. -/
def choose_price (row : PriceRow) (override_price : Option String) : PriceVal × String :=
  match override_price with
  | some op => (PriceVal.str op, "override")
  | none =>
    match safe_float (median_source row) with
    | some m => if 0 < m then (PriceVal.int (pyRound m), "median") else choose_price_high row
    | none => choose_price_high row

/-- The parse described by the specification's words, for comparison with
`safe_float`: keep only digits, `'.'` and `'-'`, then parse. -/
def spec_strip_parse (s : String) : Option ℚ :=
  pyFloat (String.mk (s.data.filter (fun c => c.isDigit || c == '.' || c == '-')))

/-! ### `records/tools/ad_generator/ad_generator.py` — genre resolution -/

/-- A raw genre field value: Python passes either a string or a list of
strings to `choose_broad_genre`. -/
inductive GenreVal where
  | str (s : String)
  | list (l : List String)
deriving DecidableEq, Repr

/-- The list case's `strs`: trimmed entries with the blank ones dropped. -/
def strsOf (raw : List String) : List String :=
  (raw.map strTrim).filter (fun s => !(s == ""))

/-- The list case's `lows = [s.lower() for s in strs]`. -/
def lowsOf (raw : List String) : List String := (strsOf raw).map strLower

/-- Model of `choose_broad_genre(raw)`: collapse a raw genre value to one broad genre.
List case: trim entries, drop blank ones; with more than one survivor prefer
`"Pop"`, then `"Country"` when both a folk- and a country-containing entry
are present, else the first survivor; `none` when nothing survives.
String case: trim; empty gives `none`; when an obvious separator occurs the
same pop / folk+country preferences apply to the whole string; otherwise the
trimmed string itself. -/
def choose_broad_genre : GenreVal → Option String
  | GenreVal.list raw =>
    let strs := strsOf raw
    let lows := lowsOf raw
    if 1 < strs.length then
      if lows.any (fun s => containsSub s "pop") then some "Pop"
      else if lows.any (fun s => containsSub s "folk") &&
              lows.any (fun s => containsSub s "country") then some "Country"
      else strs.head?
    else strs.head?
  | GenreVal.str v =>
    let s := strTrim v
    if s = "" then none
    else
      let low := strLower s
      if [",", "/", "&", ";", "|"].any (fun sep => containsSub s sep) then
        if containsSub low "pop" then some "Pop"
        else if containsSub low "folk" && containsSub low "country" then some "Country"
        else some s
      else some s

/-- Model of `normalize_genre_key(g)`: lowercase the trimmed label, turn every
non-alphanumeric character into a blank, and join the surviving words
with `_`. -/
def normalize_genre_key (g : String) : String :=
  let s := (trimChars g.data).map Char.toLower
  let s2 := s.map (fun c => if c.isAlphanum then c else ' ')
  String.mk (joinWith '_' (wordsAux s2 []))

/-! ### `ad_generator.py` — genre buckets

A Python `dict` mapping genre labels to cover lists is modelled as an
association list with unique keys, in insertion order. -/

/-- The `defaultdict(list)` update `m[k].extend(v)`: extend the list stored at
`k` in place, creating the key at the end when absent (also when `v` is
empty, as accessing a `defaultdict` key does). -/
def extendA {α : Type} : List (String × List α) → String → List α → List (String × List α)
  | [], k, v => [(k, v)]
  | (k', v') :: rest, k, v =>
    if k' == k then (k', v' ++ v) :: rest else (k', v') :: extendA rest k v

/-- Association-list lookup, the model of `m[k]` / `m.get(k)` reads. -/
def lookupA {α : Type} (m : List (String × α)) (k : String) : Option α :=
  (m.find? (fun e => e.1 == k)).map Prod.snd

/-- One step of the composite split: a bucket whose normalized key is
`"folk_world_country"` sends its first `max 1 (2n/3)` covers to
`"Folk_World"` and the rest to `"Country"`; any other bucket is extended
into the output under its own label. -/
def split_step {α : Type} (acc : List (String × List α)) (e : String × List α) :
    List (String × List α) :=
  if normalize_genre_key e.1 == "folk_world_country" then
    let n := e.2.length
    let cut := max 1 (2 * n / 3)
    extendA (extendA acc "Folk_World" (e.2.take cut)) "Country" (e.2.drop cut)
  else extendA acc e.1 e.2

/-- The composite-split pass over the whole genre map, in iteration order. -/
def split_buckets {α : Type} (m : List (String × List α)) : List (String × List α) :=
  m.foldl split_step []

/-- What one input bucket contributes to the output bucket keyed `k`: a
composite bucket sends its first `max 1 (2n/3)` covers to `"Folk_World"`
and the rest to `"Country"`; any other bucket sends all its covers to its
own key and nothing elsewhere. -/
def split_contrib {α : Type} (k : String) (e : String × List α) : List α :=
  if normalize_genre_key e.1 == "folk_world_country" then
    (if k = "Folk_World" then e.2.take (max 1 (2 * e.2.length / 3)) else []) ++
    (if k = "Country" then e.2.drop (max 1 (2 * e.2.length / 3)) else [])
  else if k = e.1 then e.2 else []

/-- Whether processing one input bucket creates the output key `k` (also
when its contribution is empty, as `defaultdict` access does): a composite
bucket creates `"Folk_World"` and `"Country"`, any other bucket its own
key. -/
def split_touches {α : Type} (k : String) (e : String × List α) : Bool :=
  if normalize_genre_key e.1 == "folk_world_country" then
    k == "Folk_World" || k == "Country"
  else k == e.1

/-- The covers accumulated into `misc`: those of every bucket with fewer
than 36 covers, in iteration order. -/
def misc_of {α : Type} (m : List (String × List α)) : List α :=
  ((m.filter (fun e => decide (e.2.length < 36))).map Prod.snd).flatten

/-- The surviving buckets: those with at least 36 covers. -/
def big_of {α : Type} (m : List (String × List α)) : List (String × List α) :=
  m.filter (fun e => !decide (e.2.length < 36))

/-- The update `big["Misc"] = big.get("Misc", []) + misc`: append the merged covers to
an existing `"Misc"` bucket, else create one at the end. -/
def addMisc {α : Type} (big : List (String × List α)) (misc : List α) :
    List (String × List α) :=
  if big.any (fun e => e.1 == "Misc") then
    big.map (fun e => if e.1 == "Misc" then (e.1, e.2 ++ misc) else e)
  else big ++ [("Misc", misc)]

/-- The tiny-genre merge: drop the buckets under 36 covers, and when any
covers were collected put them into `"Misc"`. -/
def merge_tiny {α : Type} (m : List (String × List α)) : List (String × List α) :=
  if (misc_of m).isEmpty then big_of m else addMisc (big_of m) (misc_of m)

/-! ### `ad_generator.py` — per-artist majority genre

A loaded record is `(artist, broad genre, image path)`; the artist is
`none` when no artist field was found (Python `None`, and the code also
treats an empty-string artist as missing). -/

/-- Count of `g` in `gs` (the per-artist tally for one genre). -/
def countIn (gs : List String) (g : String) : ℕ :=
  (gs.filter (fun x => x == g)).length

/-- The distinct values of `gs` in order of first occurrence — the insertion
order of the per-artist `defaultdict(int)` counter. -/
def firstOccs (gs : List String) : List String :=
  gs.foldl (fun acc g => if g ∈ acc then acc else acc ++ [g]) []

/-- Model of `max(counts.items(), key=lambda kv: kv[1])[0]`: the genre with the
highest count, the earliest-inserted one winning ties. -/
def majorityList (gs : List String) : Option String :=
  (firstOccs gs).foldl
    (fun best g =>
      match best with
      | none => some g
      | some b => if countIn gs g > countIn gs b then some g else some b)
    none

/-- The genres of artist `a`'s records, in source order. -/
def genresOf {α : Type} (records : List (Option String × String × α)) (a : String) :
    List String :=
  (records.filter (fun r => r.1 == some a)).map (fun r => r.2.1)

/-- The assignment `final_genre = artist_major.get(artist, broad)` for one record: a record
with a (non-empty) artist is reassigned that artist's majority genre over
`records`; a record without one keeps its broad genre. -/
def reassign {α : Type} (records : List (Option String × String × α))
    (r : Option String × String × α) : Option String × String × α :=
  match r.1 with
  | none => r
  | some a =>
    if a = "" then r
    else (some a, (majorityList (genresOf records a)).getD r.2.1, r.2.2)

/-- The per-artist majority override applied to every record. -/
def assign_major {α : Type} (records : List (Option String × String × α)) :
    List (Option String × String × α) :=
  records.map (reassign records)

/-- Build the genre map: `genre_map[final_genre].append(img_path)` over the
(majority-overridden) records in order. -/
def bucketize {α : Type} (records : List (Option String × String × α)) :
    List (String × List α) :=
  records.foldl (fun acc r => extendA acc r.2.1 [r.2.2]) []

/-! ### `ad_generator.py` — square grid planning

`create_single_square_grid` is I/O at the edges (Pillow, files); its
decision content — the grid geometry and the randomly padded batch — is
embedded.  The random draws `random.choice(images)` are supplied by an
oracle `choice : ℕ → α` giving the i-th draw. -/

/-- Model of `math.ceil(math.sqrt n)` for natural `n` (the float square root is
modelled exactly): the least `s` with `n ≤ s * s`. -/
def ceil_sqrt (n : ℕ) : ℕ :=
  if Nat.sqrt n * Nat.sqrt n = n then Nat.sqrt n else Nat.sqrt n + 1

/-- The planning core of `create_single_square_grid(images, outdir, tile, ...)`:
`none` (nothing written) for an empty input; otherwise the canvas dimensions
`(side*tile, side*tile)` with `side = max 1 ⌈√n⌉`, together with the batch —
the input images padded by draws from the oracle until the `side*side` grid
is full. -/
def create_single_square_grid {α : Type} (images : List α) (tile : ℕ) (choice : ℕ → α) :
    Option ((ℕ × ℕ) × List α) :=
  if images.isEmpty then none
  else
    let n := images.length
    let side := max 1 (ceil_sqrt n)
    let need := side * side
    let batch := images ++ (List.range (need - n)).map choice
    some ((side * tile, side * tile), batch)

/-! ### `records/tools/backup/store/export_price_sheet.py` — the price sheet -/

/-- Model of `_norm(s)`: strip surrounding whitespace. -/
def sheet_norm (s : String) : String := strTrim s

/-- The inner `n(x)` of `_key_artist_title`: strip, lowercase, collapse
whitespace runs to single blanks. -/
def key_norm_part (x : String) : String := squeezeWS (strLower (strTrim x))

/-- Model of `_key_artist_title(artist, title) = n(artist) + "||" + n(title)`. -/
def key_artist_title (artist title : String) : String :=
  key_norm_part artist ++ "||" ++ key_norm_part title

/-- A row of `records.csv`, restricted to the columns the grouping loop
reads.  (The `year` column only feeds the separate year aggregation, which
no claim is about.) -/
structure CsvRow where
  folder : String := ""
  release_id : String := ""
  artist : String := ""
  title : String := ""
deriving DecidableEq, Repr

/-- One grouped line of the price sheet, restricted to the fields the
grouping loop fills (`year`, `price`, `status`, … are filled later or stay
at their defaults).  `variant_release_ids` is the blank-separated
accumulation of the grouped rows' release ids. -/
structure SheetItem where
  artist : String
  title : String
  qty : ℕ
  variant_release_ids : String
deriving DecidableEq, Repr

/-- The row filter of the grouping loop: the trimmed folder must equal
`"for sale"` case-insensitively, the trimmed release id must be non-empty,
and artist and title must not both be blank. -/
def keep_row (r : CsvRow) : Bool :=
  strLower (sheet_norm r.folder) == "for sale" &&
  !(sheet_norm r.release_id == "") &&
  !(sheet_norm r.artist == "" && sheet_norm r.title == "")

/-- The grouping key the loop computes for a row. -/
def rowKey (r : CsvRow) : String :=
  key_artist_title (sheet_norm r.artist) (sheet_norm r.title)

/-- One iteration of the grouping loop on an already-kept row: bump the
quantity and append the release id when the key exists, else start a new
group (`qty = 1`, ids = this row's id). -/
def insert_row (groups : List (String × SheetItem)) (r : CsvRow) :
    List (String × SheetItem) :=
  let rid := sheet_norm r.release_id
  let key := rowKey r
  if groups.any (fun e => e.1 == key) then
    groups.map (fun e =>
      if e.1 == key then
        (e.1, { e.2 with qty := e.2.qty + 1,
                         variant_release_ids := e.2.variant_release_ids ++ " " ++ rid })
      else e)
  else
    groups ++ [(key, { artist := sheet_norm r.artist, title := sheet_norm r.title,
                       qty := 1, variant_release_ids := rid })]

/-- The whole grouping pass of `main`: filter the rows, then fold them into
the (insertion-ordered) `groups` dict. -/
def build_groups (rows : List CsvRow) : List (String × SheetItem) :=
  (rows.filter keep_row).foldl insert_row []

/-- Blank-separated join, the shape `variant_release_ids` accumulates into. -/
def spaceJoin : List String → String
  | [] => ""
  | [x] => x
  | x :: xs => x ++ " " ++ spaceJoin xs

/-- The kept rows that fall into key `k`, in source order. -/
def kept_rows (rows : List CsvRow) (k : String) : List CsvRow :=
  (rows.filter keep_row).filter (fun r => rowKey r == k)

/-! ### Concrete inputs used by witnesses and counterexamples -/

/-- A pricing row whose only value is `median = "3.2"`. -/
def row_median32 : PriceRow := { median := some "3.2" }

/-- A pricing row whose only value is `high_sold = "22.6"`. -/
def row_high226 : PriceRow := { high_sold := some "22.6" }

/-- A pricing row whose only value is the unparseable `median = "3,50"`. -/
def row_comma : PriceRow := { median := some "3,50" }

/-- "The Beatles / Revolver", release 111, in the for-sale folder. -/
def beatles_row1 : CsvRow :=
  { folder := "For Sale", release_id := "111", artist := "The Beatles", title := "Revolver" }

/-- A case- and whitespace-variant of the same artist and title, release 222. -/
def beatles_row2 : CsvRow :=
  { folder := "for sale", release_id := "222", artist := " the  beatles ", title := "REVOLVER" }

/-- A row in a folder that merely starts with "For Sale". -/
def lps_row : CsvRow :=
  { folder := "For Sale - LPs", release_id := "333", artist := "Artist", title := "Title" }

/-! ### Statement-level abstractions -/

/-- The multiset of covers held across all buckets of a genre map. -/
def coversM {α : Type} (m : List (String × List α)) : Multiset α :=
  (m.map (fun e => (e.2 : Multiset α))).sum

/-- The group line started by the first row of a key: quantity one, the
row's release id. -/
def initItem (r : CsvRow) : SheetItem :=
  { artist := sheet_norm r.artist, title := sheet_norm r.title, qty := 1,
    variant_release_ids := sheet_norm r.release_id }

/-- Folding `ms` further rows of the same key into a group line: the
quantity grows by one per row and each row's release id is appended after
a blank. -/
def bumpMany (it : SheetItem) (ms : List CsvRow) : SheetItem :=
  { it with qty := it.qty + ms.length,
            variant_release_ids :=
              ms.foldl (fun s r => s ++ " " ++ sheet_norm r.release_id)
                it.variant_release_ids }

/-! ## Lemmas and claim theorems -/

/-! ### Pricing chain (claims C1, C9) -/

/-- When the median source is absent or parses non-positively, `choose_price`
falls through to the high-sold stage. -/
theorem choose_price_median_skip (row : PriceRow)
    (hmed : safe_float (median_source row) = none ∨
      ∃ m, safe_float (median_source row) = some m ∧ m ≤ 0) :
    choose_price row none = choose_price_high row := by
  unfold choose_price
  rcases hmed with h | ⟨m, hm, hle⟩
  · rw [h]
  · rw [hm]
    simp [not_lt.mpr hle]

/-- When the high source is absent or parses non-positively, the chain ends
at the default price. -/
theorem choose_price_high_skip (row : PriceRow)
    (hhigh : safe_float (high_source row) = none ∨
      ∃ hv, safe_float (high_source row) = some hv ∧ hv ≤ 0) :
    choose_price_high row = (PriceVal.int DEFAULT_PRICE, "default") := by
  unfold choose_price_high
  rcases hhigh with h | ⟨hv, hhv, hle⟩
  · rw [h]
  · rw [hhv]
    simp [not_lt.mpr hle]

/-- C1 (amended): `choose_price` applies no floor — an override (checked
against `None`) is returned verbatim with tag `"override"`; else a median
that parses to a positive number yields that value rounded to the nearest
integer (ties to even) with tag `"median"`; else a positive high-sold value
yields its rounding with tag `"high_sold"`; else the fixed default `9` with
tag `"default"`. -/
theorem choose_price_fallback_chain (row : PriceRow) (op : Option String) :
    (∀ s, op = some s → choose_price row op = (PriceVal.str s, "override")) ∧
    (∀ m, safe_float (median_source row) = some m → 0 < m →
      choose_price row none = (PriceVal.int (pyRound m), "median")) ∧
    ((safe_float (median_source row) = none ∨
        ∃ m, safe_float (median_source row) = some m ∧ m ≤ 0) →
      (∀ hv, safe_float (high_source row) = some hv → 0 < hv →
        choose_price row none = (PriceVal.int (pyRound hv), "high_sold")) ∧
      ((safe_float (high_source row) = none ∨
          ∃ hv, safe_float (high_source row) = some hv ∧ hv ≤ 0) →
        choose_price row none = (PriceVal.int DEFAULT_PRICE, "default"))) := by
  refine ⟨fun s hs => by rw [hs]; rfl, fun m hm hpos => ?_, fun hmed => ⟨fun hv hhv hpos => ?_, fun hhigh => ?_⟩⟩
  · unfold choose_price
    rw [hm]
    simp [hpos]
  · rw [choose_price_median_skip row hmed]
    unfold choose_price_high
    rw [hhv]
    simp [hpos]
  · rw [choose_price_median_skip row hmed]
    exact choose_price_high_skip row hhigh

/-- C1 witness: with only `high_sold = "22.6"` the chain lands on the
high-sold stage with value `113/5`. -/
theorem choose_price_fallback_chain_witness :
    safe_float (high_source row_high226) = some (Rat.divInt 113 5) ∧
    choose_price row_high226 none = (PriceVal.int (pyRound (Rat.divInt 113 5)), "high_sold") :=
  ⟨by decide,
   ((choose_price_fallback_chain row_high226 none).2.2 (Or.inl (by decide))).1
     (Rat.divInt 113 5) (by decide) (by decide)⟩

/-- C1 counterexample: with no override, `median = "3.2"` and the configured
floor `4` of the claim, `choose_price` returns `3` — the bare rounding, not
the floor. -/
theorem choose_price_median_no_floor_cex :
    choose_price row_median32 none = (PriceVal.int 3, "median") ∧
    (PriceVal.int 3, "median") ≠ ((PriceVal.int 4, "median") : PriceVal × String) := by
  refine ⟨by decide, by decide⟩

/-- Unfolding `digitsUAux` on a leading digit. -/
theorem digitsUAux_cons_digit (c : Char) (rest : List Char) (h : c.isDigit = true) :
    digitsUAux (c :: rest) = (c :: (digitsUAux rest).1, (digitsUAux rest).2) := by
  rw [digitsUAux.eq_def]
  simp [h]

/-- Unfolding `digitsUAux` on an underscore followed by a digit. -/
theorem digitsUAux_cons_us_digit (c d : Char) (rest' : List Char) (h : ¬c.isDigit = true)
    (hu : (c == '_') = true) (hd : d.isDigit = true) :
    digitsUAux (c :: d :: rest') = (d :: (digitsUAux rest').1, (digitsUAux rest').2) := by
  rw [digitsUAux.eq_def]
  simp [h, hu, hd]

/-- Unfolding `digitsUAux` on an underscore not followed by a digit. -/
theorem digitsUAux_cons_us_bad (c d : Char) (rest' : List Char) (h : ¬c.isDigit = true)
    (hu : (c == '_') = true) (hd : ¬d.isDigit = true) :
    digitsUAux (c :: d :: rest') = ([], c :: d :: rest') := by
  rw [digitsUAux.eq_def]
  simp [h, hu, hd]

/-- Unfolding `digitsUAux` on a final underscore. -/
theorem digitsUAux_singleton_us (c : Char) (h : ¬c.isDigit = true)
    (hu : (c == '_') = true) : digitsUAux [c] = ([], [c]) := by
  rw [digitsUAux.eq_def]
  simp [h, hu]

/-- Unfolding `digitsUAux` on a non-digit, non-underscore character. -/
theorem digitsUAux_cons_other (c : Char) (rest : List Char) (h : ¬c.isDigit = true)
    (hu : ¬(c == '_') = true) : digitsUAux (c :: rest) = ([], c :: rest) := by
  rw [digitsUAux.eq_def]
  simp [h, hu]

/-- What `digitsUAux` consumes is a prefix made of digits and underscores. -/
theorem digitsUAux_split (cs : List Char) :
    ∃ pre : List Char, cs = pre ++ (digitsUAux cs).2 ∧
      ∀ c ∈ pre, (c.isDigit || c == '_') = true := by
  induction cs using digitsUAux.induct with
  | case1 => exact ⟨[], rfl, by simp⟩
  | case2 c rest hdig ih =>
    rcases ih with ⟨pre, hpre, hchars⟩
    refine ⟨c :: pre, ?_, ?_⟩
    · rw [digitsUAux_cons_digit c rest hdig]
      dsimp only
      rw [List.cons_append, ← hpre]
    · intro x hx
      rcases List.mem_cons.mp hx with rfl | hx'
      · simp [hdig]
      · exact hchars x hx'
  | case3 c hnd hus d rest' hd ih =>
    rcases ih with ⟨pre, hpre, hchars⟩
    refine ⟨c :: d :: pre, ?_, ?_⟩
    · rw [digitsUAux_cons_us_digit c d rest' hnd hus hd]
      dsimp only
      rw [List.cons_append, List.cons_append, ← hpre]
    · intro x hx
      rcases List.mem_cons.mp hx with rfl | hx'
      · simp [hus]
      · rcases List.mem_cons.mp hx' with rfl | hx''
        · simp [hd]
        · exact hchars x hx''
  | case4 c hnd hus d rest' hdn =>
    refine ⟨[], ?_, by simp⟩
    rw [digitsUAux_cons_us_bad c d rest' hnd hus hdn]
    rfl
  | case5 c hnd hus =>
    refine ⟨[], ?_, by simp⟩
    rw [digitsUAux_singleton_us c hnd hus]
    rfl
  | case6 c rest hnd hnus =>
    refine ⟨[], ?_, by simp⟩
    rw [digitsUAux_cons_other c rest hnd hnus]
    rfl

/-- A parsed digit group sits on a digit/underscore prefix of the input. -/
theorem parseDigitsU_split {cs ds rm : List Char}
    (h : parseDigitsU cs = some (ds, rm)) :
    ∃ pre : List Char, cs = pre ++ rm ∧
      ∀ c ∈ pre, (c.isDigit || c == '_') = true := by
  rcases cs with _ | ⟨c, rest⟩
  · simp [parseDigitsU] at h
  · rw [parseDigitsU.eq_def] at h
    dsimp only at h
    split at h
    · rename_i hdig
      rcases digitsUAux_split rest with ⟨pre, hpre, hchars⟩
      have hrm : rm = (digitsUAux rest).2 := by
        injection h with h'
        exact (congrArg Prod.snd h').symm
      refine ⟨c :: pre, ?_, ?_⟩
      · rw [hrm, List.cons_append, ← hpre]
      · intro x hx
        rcases List.mem_cons.mp hx with rfl | hx'
        · simp [hdig]
        · exact hchars x hx'
    · cases h

/-- Digit-group characters are float-literal characters. -/
theorem pyFloatChar_of_du {c : Char} (h : (c.isDigit || c == '_') = true) :
    pyFloatChar c = true := by
  unfold pyFloatChar
  rcases (Bool.or_eq_true _ _).mp h with h1 | h1 <;> simp [h1]

/-- Mantissa characters (digit groups and the dot) are float-literal
characters. -/
theorem pyFloatChar_of_dud {c : Char} (h : (c.isDigit || c == '_' || c == '.') = true) :
    pyFloatChar c = true := by
  unfold pyFloatChar
  rcases (Bool.or_eq_true _ _).mp h with h1 | h1
  · rcases (Bool.or_eq_true _ _).mp h1 with h2 | h2 <;> simp [h2]
  · simp [h1]

/-- The integer part consumed by `afterInt` is digits and underscores. -/
theorem afterInt_split (cs : List Char) :
    ∃ pre : List Char, cs = pre ++ (afterInt cs).2 ∧
      ∀ c ∈ pre, (c.isDigit || c == '_') = true := by
  cases hp : parseDigitsU cs with
  | some p =>
    rcases p with ⟨ds, rm⟩
    have ha : afterInt cs = (ds, rm) := by
      rw [afterInt.eq_def, hp]
    rw [ha]
    exact parseDigitsU_split hp
  | none =>
    have ha : afterInt cs = ([], cs) := by
      rw [afterInt.eq_def, hp]
    rw [ha]
    exact ⟨[], rfl, by simp⟩

/-- The fractional part consumed by `afterFrac` is the dot, digits and
underscores. -/
theorem afterFrac_split (cs : List Char) :
    ∃ pre : List Char, cs = pre ++ (afterFrac cs).2 ∧
      ∀ c ∈ pre, (c.isDigit || c == '_' || c == '.') = true := by
  rcases cs with _ | ⟨c0, r⟩
  · exact ⟨[], rfl, by simp⟩
  · by_cases hdot : (c0 == '.') = true
    · cases hp : parseDigitsU r with
      | some p =>
        rcases p with ⟨ds, rm⟩
        have ha : afterFrac (c0 :: r) = (ds, rm) := by
          rw [afterFrac.eq_def]
          dsimp only
          rw [if_pos hdot, hp]
        rw [ha]
        rcases parseDigitsU_split hp with ⟨pre, hpre, hchars⟩
        refine ⟨c0 :: pre, ?_, ?_⟩
        · rw [List.cons_append, ← hpre]
        · intro x hx
          rcases List.mem_cons.mp hx with rfl | hx'
          · simp [hdot]
          · have := hchars x hx'
            rcases (Bool.or_eq_true _ _).mp this with h2 | h2 <;> simp [h2]
      | none =>
        have ha : afterFrac (c0 :: r) = ([], r) := by
          rw [afterFrac.eq_def]
          dsimp only
          rw [if_pos hdot, hp]
        rw [ha]
        refine ⟨[c0], rfl, ?_⟩
        intro x hx
        rcases List.mem_singleton.mp hx with rfl
        simp [hdot]
    · have ha : afterFrac (c0 :: r) = ([], c0 :: r) := by
        rw [afterFrac.eq_def]
        dsimp only
        rw [if_neg hdot]
      rw [ha]
      exact ⟨[], rfl, by simp⟩

/-- A successful exponent parse consumes only float-literal characters. -/
theorem parseExp_chars {cs : List Char} {e : ℤ} (h : parseExp cs = some e) :
    ∀ c ∈ cs, pyFloatChar c = true := by
  intro c hc
  rcases cs with _ | ⟨c0, r⟩
  · cases hc
  · rw [parseExp.eq_def] at h
    dsimp only at h
    split at h
    · rename_i hcond
      have hc0 : pyFloatChar c0 = true := by
        rcases (Bool.or_eq_true _ _).mp hcond with h1 | h1
        · rw [beq_iff_eq.mp h1]
          decide
        · rw [beq_iff_eq.mp h1]
          decide
      split at h
      · split at h
        · rename_i ds hpd
          rcases parseDigitsU_split hpd with ⟨pre, hpre, hchars⟩
          rw [List.append_nil] at hpre
          rcases List.mem_cons.mp hc with rfl | hc'
          · exact hc0
          · rcases List.mem_cons.mp hc' with rfl | hc''
            · decide
            · exact pyFloatChar_of_du (hchars c (hpre ▸ hc''))
        · cases h
      · split at h
        · rename_i ds hpd
          rcases parseDigitsU_split hpd with ⟨pre, hpre, hchars⟩
          rw [List.append_nil] at hpre
          rcases List.mem_cons.mp hc with rfl | hc'
          · exact hc0
          · rcases List.mem_cons.mp hc' with rfl | hc''
            · decide
            · exact pyFloatChar_of_du (hchars c (hpre ▸ hc''))
        · cases h
      · split at h
        · rename_i ds hpd
          rcases parseDigitsU_split hpd with ⟨pre, hpre, hchars⟩
          rw [List.append_nil] at hpre
          rcases List.mem_cons.mp hc with rfl | hc'
          · exact hc0
          · exact pyFloatChar_of_du (hchars c (hpre ▸ hc'))
        · cases h
    · cases h

/-- A successful unsigned float-literal parse consumes only float-literal
characters. -/
theorem parseNumber_chars {cs : List Char} {q : ℚ} (h : parseNumber cs = some q) :
    ∀ c ∈ cs, pyFloatChar c = true := by
  intro c hc
  simp only [parseNumber] at h
  split at h
  · cases h
  · split at h
    · rename_i e hexp
      obtain ⟨pre1, hpre1, hchars1⟩ := afterInt_split cs
      obtain ⟨pre2, hpre2, hchars2⟩ := afterFrac_split (afterInt cs).2
      rw [hpre2] at hpre1
      rw [hpre1] at hc
      rcases List.mem_append.mp hc with h1 | h12
      · exact pyFloatChar_of_du (hchars1 c h1)
      · rcases List.mem_append.mp h12 with h2 | h3
        · exact pyFloatChar_of_dud (hchars2 c h2)
        · exact parseExp_chars hexp c h3
    · cases h

/-- A successful `float` parse consumes only float-literal characters: any
other character in the trimmed input — a comma, a currency letter — defeats
the parse. -/
theorem pyFloat_chars {s : String} {q : ℚ} (h : pyFloat s = some q) :
    ∀ c ∈ trimChars s.data, pyFloatChar c = true := by
  intro c hc
  unfold pyFloat at h
  split at h
  · rename_i rest heq
    rw [heq] at hc
    rcases List.mem_cons.mp hc with rfl | h2
    · decide
    · exact parseNumber_chars h c h2
  · rename_i rest heq
    rcases Option.map_eq_some'.mp h with ⟨q', hq', _⟩
    rw [heq] at hc
    rcases List.mem_cons.mp hc with rfl | h2
    · decide
    · exact parseNumber_chars hq' c h2
  · exact parseNumber_chars h c hc

/-- C9 (amended): currency strings are parsed by `float` after whitespace
trimming and dollar-sign removal — a successful parse consumes only
float-literal characters (sign, digits, the dot, the exponent marker, the
digit underscore, or the letters of the specials `inf`/`nan`), so any other
remaining character (a comma, a currency letter, …) makes the parse fail —
and an absent or non-positive parse makes the fallback chain continue to
the next source (and from the high-sold source on to the default) rather
than produce a price from it. -/
theorem safe_float_absent_semantics (row : PriceRow) (s : String) :
    (∀ q, pyFloat s = some q →
      ∀ c ∈ trimChars s.data, pyFloatChar c = true) ∧
    ((safe_float (median_source row) = none ∨
        ∃ m, safe_float (median_source row) = some m ∧ m ≤ 0) →
      choose_price row none = choose_price_high row) ∧
    ((safe_float (high_source row) = none ∨
        ∃ hv, safe_float (high_source row) = some hv ∧ hv ≤ 0) →
      choose_price_high row = (PriceVal.int DEFAULT_PRICE, "default")) :=
  ⟨fun _ h => pyFloat_chars h, choose_price_median_skip row, choose_price_high_skip row⟩

/-- C9 witness: the unparseable median `"3,50"` is treated as absent and the
chain falls through. -/
theorem safe_float_absent_semantics_witness :
    choose_price row_comma none = choose_price_high row_comma :=
  (safe_float_absent_semantics row_comma "").2.1 (Or.inl (by decide))

/-- C9 counterexample: `safe_float` does not strip arbitrary non-numeric
characters — `"3,50"` fails to parse and the row defaults, while the
spec-worded stripping parse would read it as `350`. -/
theorem safe_float_strip_cex :
    safe_float (some "3,50") = none ∧
    spec_strip_parse "3,50" = some (Rat.divInt 350 1) ∧
    choose_price row_comma none = (PriceVal.int DEFAULT_PRICE, "default") := by
  refine ⟨by decide, by decide, by decide⟩

/-! ### Genre resolution (claim C2) -/

/-- C2: on a list-valued genre tag, after trimming and dropping blank
entries: with more than one survivor, any pop-containing entry (case
insensitively) forces `"Pop"`; else a folk- and a country-containing entry
together force `"Country"`; else the first survivor is returned, as it also
is when exactly one survives; with no survivor the result is `none`. -/
theorem choose_broad_genre_list_rules (raw : List String) :
    (1 < (strsOf raw).length →
      (lowsOf raw).any (fun s => containsSub s "pop") = true →
      choose_broad_genre (GenreVal.list raw) = some "Pop") ∧
    (1 < (strsOf raw).length →
      (lowsOf raw).any (fun s => containsSub s "pop") = false →
      (lowsOf raw).any (fun s => containsSub s "folk") = true →
      (lowsOf raw).any (fun s => containsSub s "country") = true →
      choose_broad_genre (GenreVal.list raw) = some "Country") ∧
    (1 < (strsOf raw).length →
      (lowsOf raw).any (fun s => containsSub s "pop") = false →
      ((lowsOf raw).any (fun s => containsSub s "folk") &&
        (lowsOf raw).any (fun s => containsSub s "country")) = false →
      choose_broad_genre (GenreVal.list raw) = (strsOf raw).head?) ∧
    ((strsOf raw).length = 1 →
      choose_broad_genre (GenreVal.list raw) = (strsOf raw).head?) ∧
    ((strsOf raw).length = 0 →
      choose_broad_genre (GenreVal.list raw) = none) := by
  refine ⟨fun hlen hpop => ?_, fun hlen hpop hfolk hcountry => ?_,
    fun hlen hpop hcomb => ?_, fun hone => ?_, fun hzero => ?_⟩
  · simp [choose_broad_genre, hlen, hpop]
  · simp [choose_broad_genre, hlen, hpop, hfolk, hcountry]
  · cases hfolk : (lowsOf raw).any (fun s => containsSub s "folk") with
    | false => simp [choose_broad_genre, hlen, hpop, hfolk]
    | true =>
      have hcountry : (lowsOf raw).any (fun s => containsSub s "country") = false := by
        cases hcountry' : (lowsOf raw).any (fun s => containsSub s "country")
        · rfl
        · rw [hfolk, hcountry'] at hcomb
          exact absurd hcomb (by simp)
      simp [choose_broad_genre, hlen, hpop, hfolk, hcountry]
  · have : ¬ 1 < (strsOf raw).length := by omega
    simp [choose_broad_genre, this]
  · have h : strsOf raw = [] := List.length_eq_zero.mp hzero
    simp [choose_broad_genre, h]

/-- C2 witness: two survivors with a pop entry resolve to `"Pop"`. -/
theorem choose_broad_genre_list_rules_witness :
    choose_broad_genre (GenreVal.list ["Rock", "Pop"]) = some "Pop" :=
  (choose_broad_genre_list_rules ["Rock", "Pop"]).1 (by decide) (by decide)

/-! ### Grid planning (claim C5) -/

/-- The square of `ceil_sqrt n` covers `n`. -/
theorem ceil_sqrt_ge (n : ℕ) : n ≤ ceil_sqrt n * ceil_sqrt n := by
  unfold ceil_sqrt
  split
  · omega
  · have := Nat.lt_succ_sqrt n
    simp only [Nat.succ_eq_add_one] at this
    omega

/-- Positivity of `ceil_sqrt` on positive input. -/
theorem ceil_sqrt_pos (n : ℕ) (h : 0 < n) : 0 < ceil_sqrt n := by
  unfold ceil_sqrt
  split
  · exact Nat.sqrt_pos.mpr h
  · omega

/-- C5: a non-empty list of `n` images with tile size `t` plans a canvas of
exactly `(⌈√n⌉*t, ⌈√n⌉*t)`, the batch being the input padded with draws
from the input until the `⌈√n⌉ × ⌈√n⌉` grid is full; an empty list plans
nothing (no file is written). -/
theorem create_single_square_grid_spec {α : Type} (images : List α) (tile : ℕ)
    (choice : ℕ → α) :
    (images = [] → create_single_square_grid images tile choice = none) ∧
    (images ≠ [] → (∀ i, choice i ∈ images) →
      ∃ pad : List α,
        create_single_square_grid images tile choice =
          some ((ceil_sqrt images.length * tile, ceil_sqrt images.length * tile),
            images ++ pad) ∧
        (images ++ pad).length = ceil_sqrt images.length * ceil_sqrt images.length ∧
        ∀ x ∈ pad, x ∈ images) := by
  constructor
  · intro h
    subst h
    rfl
  · intro hne hc
    have hpos : 0 < images.length := List.length_pos.mpr hne
    have hmax : max 1 (ceil_sqrt images.length) = ceil_sqrt images.length :=
      max_eq_right (ceil_sqrt_pos _ hpos)
    have hempty : images.isEmpty = false := by
      cases images
      · exact absurd rfl hne
      · rfl
    refine ⟨(List.range (ceil_sqrt images.length * ceil_sqrt images.length
        - images.length)).map choice, ?_, ?_, ?_⟩
    · simp only [create_single_square_grid, hempty, Bool.false_eq_true, if_false, hmax]
    · have := ceil_sqrt_ge images.length
      simp only [List.length_append, List.length_map, List.length_range]
      omega
    · intro x hx
      rcases List.mem_map.mp hx with ⟨i, _, rfl⟩
      exact hc i

/-- C5 witness: three images, tile 7: a `2 × 2` grid, one padded draw. -/
theorem create_single_square_grid_spec_witness :
    (∀ i : ℕ, (fun _ => 0) i ∈ ([0, 1, 2] : List ℕ)) ∧
    (∃ pad : List ℕ,
      create_single_square_grid ([0, 1, 2] : List ℕ) 7 (fun _ => 0) =
        some ((ceil_sqrt ([0, 1, 2] : List ℕ).length * 7,
          ceil_sqrt ([0, 1, 2] : List ℕ).length * 7), [0, 1, 2] ++ pad) ∧
      ([0, 1, 2] ++ pad).length =
        ceil_sqrt ([0, 1, 2] : List ℕ).length * ceil_sqrt ([0, 1, 2] : List ℕ).length ∧
      ∀ x ∈ pad, x ∈ ([0, 1, 2] : List ℕ)) :=
  ⟨fun _ => by simp,
   (create_single_square_grid_spec [0, 1, 2] 7 (fun _ => 0)).2 (by decide) (fun _ => by simp)⟩

/-! ### Composite split (claim C3) -/

/-- Lookup on a cons cell. -/
theorem lookupA_cons {α : Type} (e : String × α) (m : List (String × α)) (k : String) :
    lookupA (e :: m) k = if e.1 == k then some e.2 else lookupA m k := by
  cases h : (e.1 == k) <;> simp [lookupA, List.find?_cons, h]

/-- Looking up the extended key returns the old content (empty when the key
was absent) with the new covers appended. -/
theorem lookupA_extendA_self {α : Type} (m : List (String × List α)) (k : String)
    (v : List α) :
    lookupA (extendA m k v) k = some ((lookupA m k).getD [] ++ v) := by
  induction m with
  | nil =>
    simp [extendA, lookupA_cons, lookupA]
  | cons e rest ih =>
    simp only [extendA]
    split
    · rename_i h
      rw [lookupA_cons, lookupA_cons]
      simp only [h, if_true]
      rfl
    · rename_i h
      rw [lookupA_cons, lookupA_cons]
      simp only [Bool.not_eq_true] at h
      simp only [h, Bool.false_eq_true, if_false]
      exact ih

/-- Extending one key leaves every other key's lookup unchanged. -/
theorem lookupA_extendA_ne {α : Type} (m : List (String × List α)) (k : String)
    (v : List α) (g : String) (hg : g ≠ k) :
    lookupA (extendA m k v) g = lookupA m g := by
  induction m with
  | nil =>
    simp [extendA, lookupA_cons, beq_eq_false_iff_ne.mpr (Ne.symm hg), lookupA]
  | cons e rest ih =>
    simp only [extendA]
    split
    · rename_i h
      rw [lookupA_cons, lookupA_cons]
      have : (e.1 == g) = false :=
        beq_eq_false_iff_ne.mpr fun hh => hg (by rw [← hh]; exact beq_iff_eq.mp h)
      simp [this]
    · rw [lookupA_cons, lookupA_cons, ih]

/-- A bucket that does not touch a key contributes nothing to it. -/
theorem split_contrib_eq_nil {α : Type} {k : String} {e : String × List α}
    (h : split_touches k e = false) : split_contrib k e = [] := by
  unfold split_touches at h
  unfold split_contrib
  by_cases hcomp : (normalize_genre_key e.1 == "folk_world_country") = true
  · rw [if_pos hcomp] at h
    rw [if_pos hcomp]
    simp only [Bool.or_eq_false_iff, beq_eq_false_iff_ne] at h
    simp [h.1, h.2]
  · rw [if_neg hcomp] at h
    rw [if_neg hcomp]
    simp only [beq_eq_false_iff_ne] at h
    simp [h]

/-- One split step, described through lookup: the key gains exactly the
processed bucket's contribution, created fresh when the step touches a key
not present yet. -/
theorem split_step_lookup {α : Type} (acc : List (String × List α))
    (e : String × List α) (k : String) :
    lookupA (split_step acc e) k =
      match lookupA acc k with
      | some v => some (v ++ split_contrib k e)
      | none => if split_touches k e then some (split_contrib k e) else none := by
  unfold split_step split_contrib split_touches
  split
  · by_cases hFW : k = "Folk_World"
    · subst hFW
      rw [lookupA_extendA_ne _ _ _ _ (by decide), lookupA_extendA_self]
      cases hacc : lookupA acc "Folk_World" <;> simp [hacc]
    · by_cases hC : k = "Country"
      · subst hC
        rw [lookupA_extendA_self, lookupA_extendA_ne _ _ _ _ (by decide)]
        cases hacc : lookupA acc "Country" <;> simp [hacc]
      · rw [lookupA_extendA_ne _ _ _ _ hC, lookupA_extendA_ne _ _ _ _ hFW]
        cases hacc : lookupA acc k <;> simp [hacc, hFW, hC]
  · by_cases hk : k = e.1
    · rw [hk, lookupA_extendA_self]
      cases hacc : lookupA acc e.1 <;> simp [hk, hacc]
    · rw [lookupA_extendA_ne _ _ _ _ hk]
      cases hacc : lookupA acc k <;> simp [hacc, hk]

/-- The whole split fold, described through lookup: each key ends up with
the in-order concatenation of all buckets' contributions, appended to
whatever the accumulator already held; a key nothing touches stays
absent. -/
theorem foldl_split_lookup {α : Type} (l : List (String × List α))
    (acc : List (String × List α)) (k : String) :
    lookupA (l.foldl split_step acc) k =
      match lookupA acc k with
      | some v => some (v ++ (l.map (split_contrib k)).flatten)
      | none =>
        if l.any (fun e => split_touches k e) then
          some ((l.map (split_contrib k)).flatten)
        else none := by
  induction l generalizing acc with
  | nil =>
    simp only [List.foldl_nil, List.map_nil, List.flatten_nil, List.any_nil]
    cases hacc : lookupA acc k
    · simp
    · simp
  | cons e rest ih =>
    simp only [List.foldl_cons, List.map_cons, List.flatten_cons, List.any_cons]
    rw [ih (split_step acc e), split_step_lookup]
    cases hacc : lookupA acc k with
    | some v =>
      simp only []
      rw [List.append_assoc]
    | none =>
      cases htouch : split_touches k e with
      | true =>
        simp only [htouch, if_true, Bool.true_or]
      | false =>
        simp only [htouch, Bool.false_eq_true, if_false, Bool.false_or]
        rw [split_contrib_eq_nil htouch, List.nil_append]

/-- C3 (amended): over an arbitrary genre map, the composite split's output
at every key is the in-order concatenation of each input bucket's
contribution to that key, and a key no bucket touches is absent.  A bucket
whose normalized key is `"folk_world_country"` contributes exactly its
first `max 1 (2n/3)` covers to `"Folk_World"` and the remaining covers to
`"Country"` — the two sizes summing to `n`, the first equal to
`max 1 (2n/3)` whenever `n ≥ 1` — while a bucket with any different
normalized key contributes all its covers to its own key and nothing to
any other key.  In particular a non-composite bucket keeps its covers
under its own key, and a bucket literally keyed `"Folk_World"` or
`"Country"` accumulates the split covers of composite buckets rather than
passing through unchanged. -/
theorem split_buckets_composite_rules {α : Type} (m : List (String × List α))
    (k : String) :
    (lookupA (split_buckets m) k =
      if m.any (fun e => split_touches k e) then
        some ((m.map (split_contrib k)).flatten)
      else none) ∧
    (∀ g covers, (g, covers) ∈ m → normalize_genre_key g = "folk_world_country" →
      split_contrib "Folk_World" (g, covers) =
        covers.take (max 1 (2 * covers.length / 3)) ∧
      split_contrib "Country" (g, covers) =
        covers.drop (max 1 (2 * covers.length / 3)) ∧
      (split_contrib "Folk_World" (g, covers)).length +
        (split_contrib "Country" (g, covers)).length = covers.length ∧
      (1 ≤ covers.length →
        (split_contrib "Folk_World" (g, covers)).length =
          max 1 (2 * covers.length / 3))) ∧
    (∀ g covers, (g, covers) ∈ m → normalize_genre_key g ≠ "folk_world_country" →
      split_contrib g (g, covers) = covers ∧
      ∀ k', k' ≠ g → split_contrib k' (g, covers) = []) := by
  refine ⟨?_, ?_, ?_⟩
  · unfold split_buckets
    rw [foldl_split_lookup]
    rfl
  · intro g covers hmem hcomp
    have hFW : split_contrib "Folk_World" (g, covers) =
        covers.take (max 1 (2 * covers.length / 3)) := by
      unfold split_contrib
      rw [if_pos (beq_iff_eq.mpr hcomp)]
      simp
    have hC : split_contrib "Country" (g, covers) =
        covers.drop (max 1 (2 * covers.length / 3)) := by
      unfold split_contrib
      rw [if_pos (beq_iff_eq.mpr hcomp)]
      simp
    refine ⟨hFW, hC, ?_, fun h1 => ?_⟩
    · rw [hFW, hC]
      simp only [List.length_take, List.length_drop]
      omega
    · rw [hFW]
      simp only [List.length_take]
      omega
  · intro g covers hmem hncomp
    have hcompb : (normalize_genre_key g == "folk_world_country") = false :=
      beq_eq_false_iff_ne.mpr hncomp
    constructor
    · unfold split_contrib
      simp [hcompb]
    · intro k' hk'
      unfold split_contrib
      simp [hcompb, hk']

/-- C3 witness: a composite bucket of four covers contributes its first
`max 1 (2·4/3)` covers to `"Folk_World"` and the rest to `"Country"`, and
a non-composite `"Country"` bucket contributes its covers to its own
key. -/
theorem split_buckets_composite_rules_witness :
    split_contrib "Folk_World" ("Folk, World, & Country", ([10, 20, 30, 40] : List ℕ)) =
      ([10, 20, 30, 40] : List ℕ).take
        (max 1 (2 * ([10, 20, 30, 40] : List ℕ).length / 3)) ∧
    split_contrib "Country" ("Folk, World, & Country", ([10, 20, 30, 40] : List ℕ)) =
      ([10, 20, 30, 40] : List ℕ).drop
        (max 1 (2 * ([10, 20, 30, 40] : List ℕ).length / 3)) ∧
    split_contrib "Country" ("Country", ([0] : List ℕ)) = [0] :=
  ⟨(((split_buckets_composite_rules
      [("Folk, World, & Country", [10, 20, 30, 40])] "Country").2.1)
      "Folk, World, & Country" [10, 20, 30, 40] (by decide) (by decide)).1,
   (((split_buckets_composite_rules
      [("Folk, World, & Country", [10, 20, 30, 40])] "Country").2.1)
      "Folk, World, & Country" [10, 20, 30, 40] (by decide) (by decide)).2.1,
   (((split_buckets_composite_rules [("Country", [0])] "Country").2.2)
      "Country" [0] (by decide) (by decide)).1⟩

/-- C3 counterexample: a bucket literally keyed `"Country"` — whose
normalized key is not the composite one — does not pass through unchanged
when a composite bucket follows it: the composite remainder is appended to
it. -/
theorem split_buckets_passthrough_cex :
    normalize_genre_key "Country" ≠ "folk_world_country" ∧
    split_buckets [("Country", ([0] : List ℕ)), ("Folk, World, & Country", [1, 2, 3])] =
      [("Country", [0, 3]), ("Folk_World", [1, 2])] ∧
    lookupA (split_buckets [("Country", ([0] : List ℕ)), ("Folk, World, & Country", [1, 2, 3])])
      "Country" ≠ some [0] := by
  refine ⟨by decide, by decide, by decide⟩

/-! ### Association-list toolbox -/

/-- A key held by no entry looks up to nothing. -/
theorem lookupA_eq_none_of_keys {α : Type} {m : List (String × α)} {k : String}
    (h : ∀ e ∈ m, e.1 ≠ k) : lookupA m k = none := by
  induction m with
  | nil => rfl
  | cons e rest ih =>
    have hne : (e.1 == k) = false := beq_eq_false_iff_ne.mpr (h e (List.mem_cons_self e rest))
    rw [lookupA_cons]
    simp only [hne, Bool.false_eq_true, if_false]
    exact ih fun e' he' => h e' (List.mem_cons_of_mem e he')

/-- A satisfied search yields an element satisfying the predicate. -/
theorem find?_pred {α : Type} {p : α → Bool} {l : List α} {a : α}
    (h : List.find? p l = some a) : p a = true :=
  List.find?_some h

/-- With pairwise-distinct keys, two entries sharing a key are equal. -/
theorem eq_of_mem_nodup_keys {α : Type} {m : List (String × α)}
    (hnd : (m.map Prod.fst).Nodup) {e₁ e₂ : String × α}
    (h₁ : e₁ ∈ m) (h₂ : e₂ ∈ m) (hk : e₁.1 = e₂.1) : e₁ = e₂ := by
  induction m with
  | nil => cases h₁
  | cons a rest ih =>
    rw [List.map_cons, List.nodup_cons] at hnd
    rcases List.mem_cons.mp h₁ with h₁e | h₁'
    · rcases List.mem_cons.mp h₂ with h₂e | h₂'
      · rw [h₁e, h₂e]
      · subst h₁e
        have : e₁.1 ∈ List.map Prod.fst rest := by
          rw [hk]
          exact List.mem_map_of_mem Prod.fst h₂'
        exact absurd this hnd.1
    · rcases List.mem_cons.mp h₂ with h₂e | h₂'
      · subst h₂e
        have : e₂.1 ∈ List.map Prod.fst rest := by
          rw [← hk]
          exact List.mem_map_of_mem Prod.fst h₁'
        exact absurd this hnd.1
      · exact ih hnd.2 h₁' h₂'

/-- With pairwise-distinct keys a member entry is what lookup returns. -/
theorem lookupA_of_mem_nodup {α : Type} {m : List (String × α)} {g : String} {v : α}
    (hnd : (m.map Prod.fst).Nodup) (hmem : (g, v) ∈ m) : lookupA m g = some v := by
  induction m with
  | nil => cases hmem
  | cons a rest ih =>
    rw [List.map_cons, List.nodup_cons] at hnd
    rcases List.mem_cons.mp hmem with h' | h'
    · rw [← h', lookupA_cons]
      simp
    · have hne : a.1 ≠ g := fun he => hnd.1 (he ▸ List.mem_map_of_mem Prod.fst h')
      rw [lookupA_cons]
      simp only [beq_eq_false_iff_ne.mpr hne, Bool.false_eq_true, if_false]
      exact ih hnd.2 h'

/-! ### Tiny-genre merge (claim C4) -/

/-- Appending covers to the `"Misc"` entries leaves other keys' lookups
unchanged. -/
theorem lookupA_map_updMisc {α : Type} (l : List (String × List α)) (misc : List α)
    (g : String) (hg : g ≠ "Misc") :
    lookupA (l.map (fun e => if e.1 == "Misc" then (e.1, e.2 ++ misc) else e)) g =
      lookupA l g := by
  induction l with
  | nil => rfl
  | cons e rest ih =>
    rw [List.map_cons, lookupA_cons, lookupA_cons]
    by_cases h : e.1 = g
    · have hne : (e.1 == "Misc") = false :=
        beq_eq_false_iff_ne.mpr fun hem => hg (h.symm.trans hem)
      simp only [hne, Bool.false_eq_true, if_false]
      simp [h]
    · have hfst : (if (e.1 == "Misc") = true then (e.1, e.2 ++ misc) else e).1 = e.1 := by
        split <;> rfl
      rw [hfst]
      simp only [beq_eq_false_iff_ne.mpr h, Bool.false_eq_true, if_false]
      exact ih

/-- Appending covers to the `"Misc"` entries updates that key's lookup. -/
theorem lookupA_map_updMisc_misc {α : Type} {l : List (String × List α)} (misc : List α)
    {v : List α} (h : lookupA l "Misc" = some v) :
    lookupA (l.map (fun e => if e.1 == "Misc" then (e.1, e.2 ++ misc) else e)) "Misc" =
      some (v ++ misc) := by
  induction l with
  | nil => cases h
  | cons e rest ih =>
    rw [List.map_cons, lookupA_cons]
    rw [lookupA_cons] at h
    have hfst : (if (e.1 == "Misc") = true then (e.1, e.2 ++ misc) else e).1 = e.1 := by
      split <;> rfl
    rw [hfst]
    cases hc : (e.1 == "Misc") with
    | true =>
      rw [hc] at h
      simp only [if_true] at h
      injection h with h
      simp [hc, ← h]
    | false =>
      rw [hc] at h
      simp only [Bool.false_eq_true, if_false] at h ⊢
      exact ih h

/-- Appending a fresh `("Misc", …)` entry leaves other keys' lookups
unchanged. -/
theorem lookupA_append_misc_ne {α : Type} (l : List (String × List α)) (misc : List α)
    (g : String) (hg : g ≠ "Misc") :
    lookupA (l ++ [("Misc", misc)]) g = lookupA l g := by
  induction l with
  | nil =>
    rw [List.nil_append, lookupA_cons]
    simp only [beq_eq_false_iff_ne.mpr (Ne.symm hg), Bool.false_eq_true, if_false]
  | cons e rest ih =>
    rw [List.cons_append, lookupA_cons, lookupA_cons, ih]

/-- Appending a fresh `("Misc", …)` entry to a map without that key makes
it look up to the appended covers. -/
theorem lookupA_append_misc_new {α : Type} {l : List (String × List α)} (misc : List α)
    (h : lookupA l "Misc" = none) :
    lookupA (l ++ [("Misc", misc)]) "Misc" = some misc := by
  induction l with
  | nil =>
    rw [List.nil_append, lookupA_cons]
    simp only [beq_self_eq_true, if_true]
  | cons e rest ih =>
    rw [List.cons_append, lookupA_cons]
    rw [lookupA_cons] at h
    cases hc : (e.1 == "Misc") with
    | true =>
      rw [hc] at h
      simp at h
    | false =>
      rw [hc] at h
      simp only [Bool.false_eq_true, if_false] at h ⊢
      exact ih h

/-- The merge step `addMisc` leaves every key other than `"Misc"` unchanged. -/
theorem lookupA_addMisc_ne {α : Type} (big : List (String × List α)) (misc : List α)
    (g : String) (hg : g ≠ "Misc") :
    lookupA (addMisc big misc) g = lookupA big g := by
  unfold addMisc
  split
  · exact lookupA_map_updMisc big misc g hg
  · exact lookupA_append_misc_ne big misc g hg

/-- When a `"Misc"` bucket already exists, `addMisc` appends to it. -/
theorem lookupA_addMisc_some {α : Type} {big : List (String × List α)} {misc : List α}
    {v : List α} (h : lookupA big "Misc" = some v) :
    lookupA (addMisc big misc) "Misc" = some (v ++ misc) := by
  have hany : (big.any fun e => e.1 == "Misc") = true := by
    rcases Option.map_eq_some'.mp h with ⟨e, he, _⟩
    exact List.any_eq_true.mpr
      ⟨e, List.mem_of_find?_eq_some he, @find?_pred _ (fun e => e.1 == "Misc") big e he⟩
  unfold addMisc
  rw [hany]
  simp only [if_true]
  exact lookupA_map_updMisc_misc misc h

/-- Without an existing `"Misc"` bucket, `addMisc` creates one holding
exactly the merged covers. -/
theorem lookupA_addMisc_none {α : Type} {big : List (String × List α)} {misc : List α}
    (h : lookupA big "Misc" = none) :
    lookupA (addMisc big misc) "Misc" = some misc := by
  have hany : (big.any fun e => e.1 == "Misc") = false := by
    rw [Bool.eq_false_iff]
    intro hc
    rcases List.any_eq_true.mp hc with ⟨e, he, hp⟩
    exact (List.find?_eq_none.mp (Option.map_eq_none'.mp h) e he) hp
  unfold addMisc
  rw [hany]
  simp only [Bool.false_eq_true, if_false]
  exact lookupA_append_misc_new misc h

/-- C4 (amended): after the single-pass merge over buckets with distinct
labels, a bucket under 36 covers (other than one literally labelled
`"Misc"`) no longer exists; a bucket of 36 or more covers keeps exactly its
covers under its label — except that a surviving bucket literally labelled
`"Misc"` additionally receives the merged covers appended to it; whenever
any covers were merged they all appear in the `"Misc"` bucket; and a
`"Misc"` bucket is only ever emitted non-empty (in particular the freshly
created one is never itself re-merged even when under 36). -/
theorem merge_tiny_spec {α : Type} (m : List (String × List α))
    (hnd : (m.map Prod.fst).Nodup) :
    (∀ g v, (g, v) ∈ m → v.length < 36 → g ≠ "Misc" →
      lookupA (merge_tiny m) g = none) ∧
    (∀ g v, (g, v) ∈ m → 36 ≤ v.length → g ≠ "Misc" →
      lookupA (merge_tiny m) g = some v) ∧
    (∀ v, ("Misc", v) ∈ m → 36 ≤ v.length →
      lookupA (merge_tiny m) "Misc" = some (v ++ misc_of m)) ∧
    (misc_of m ≠ [] →
      ∃ w, lookupA (merge_tiny m) "Misc" = some w ∧ ∀ c ∈ misc_of m, c ∈ w) ∧
    (∀ w, lookupA (merge_tiny m) "Misc" = some w → w ≠ []) := by
  have hndbig : ((big_of m).map Prod.fst).Nodup :=
    hnd.sublist ((List.filter_sublist m).map Prod.fst)
  refine ⟨?_, ?_, ?_, ?_, ?_⟩
  · intro g v hmem hlt hg
    have hbig : lookupA (big_of m) g = none := by
      apply lookupA_eq_none_of_keys
      intro e he hek
      have hem : e ∈ m := List.mem_of_mem_filter he
      have heq : e = (g, v) := eq_of_mem_nodup_keys hnd hem hmem hek
      have hc := List.of_mem_filter he
      rw [heq] at hc
      simp at hc
      omega
    unfold merge_tiny
    split
    · exact hbig
    · rw [lookupA_addMisc_ne _ _ _ hg]
      exact hbig
  · intro g v hmem hge hg
    have hmem' : (g, v) ∈ big_of m :=
      List.mem_filter.mpr ⟨hmem, by simp; omega⟩
    have hbig : lookupA (big_of m) g = some v := lookupA_of_mem_nodup hndbig hmem'
    unfold merge_tiny
    split
    · exact hbig
    · rw [lookupA_addMisc_ne _ _ _ hg]
      exact hbig
  · intro v hmem hge
    have hmem' : ("Misc", v) ∈ big_of m :=
      List.mem_filter.mpr ⟨hmem, by simp; omega⟩
    have hbig : lookupA (big_of m) "Misc" = some v := lookupA_of_mem_nodup hndbig hmem'
    unfold merge_tiny
    split
    · rename_i hmisc
      have hnil : misc_of m = [] := by simpa using hmisc
      rw [hnil, List.append_nil]
      exact hbig
    · exact lookupA_addMisc_some hbig
  · intro hne
    unfold merge_tiny
    split
    · rename_i hmisc
      exact absurd (by simpa using hmisc) hne
    · cases hbig : lookupA (big_of m) "Misc" with
      | some v =>
        exact ⟨v ++ misc_of m, lookupA_addMisc_some hbig,
          fun c hc => List.mem_append.mpr (Or.inr hc)⟩
      | none =>
        exact ⟨misc_of m, lookupA_addMisc_none hbig, fun c hc => hc⟩
  · intro w hw
    unfold merge_tiny at hw
    split at hw
    · rcases Option.map_eq_some'.mp hw with ⟨e, hfind, hev⟩
      have hmem := List.mem_of_find?_eq_some hfind
      have hc := List.of_mem_filter hmem
      simp at hc
      intro hwnil
      rw [hev, hwnil] at hc
      simp at hc
    · rename_i hmisc
      have hne : misc_of m ≠ [] := by simpa using hmisc
      cases hbig : lookupA (big_of m) "Misc" with
      | some v =>
        rw [lookupA_addMisc_some hbig] at hw
        injection hw with hw
        rw [← hw]
        simp [hne]
      | none =>
        rw [lookupA_addMisc_none hbig] at hw
        injection hw with hw
        rw [← hw]
        exact hne

/-- C4 witness: with one big bucket and one tiny one, the tiny bucket
`"Blues"` disappears from the output. -/
theorem merge_tiny_spec_witness :
    lookupA (merge_tiny [("Jazz", List.range 40), ("Blues", ([7] : List ℕ))]) "Blues" =
      none :=
  (merge_tiny_spec [("Jazz", List.range 40), ("Blues", [7])] (by decide)).1 "Blues" [7]
    (by decide) (by decide) (by decide)

/-- C4 counterexample: a bucket literally labelled `"Misc"` holding 36
covers does not survive unchanged — the merged covers of the tiny
`"Blues"` bucket are appended to it. -/
theorem merge_tiny_big_misc_cex :
    merge_tiny [("Misc", List.range 36), ("Blues", ([99] : List ℕ))] =
      [("Misc", List.range 36 ++ [99])] ∧
    36 ≤ (List.range 36).length ∧
    lookupA (merge_tiny [("Misc", List.range 36), ("Blues", ([99] : List ℕ))]) "Misc" ≠
      some (List.range 36) := by
  refine ⟨by decide, by decide, by decide⟩

/-! ### Artist majority aggregation (claim C6) -/

/-- Reassignment never changes the artist component. -/
theorem reassign_fst {α : Type} (records : List (Option String × String × α))
    (r : Option String × String × α) : (reassign records r).1 = r.1 := by
  unfold reassign
  rcases r with ⟨aOpt, g, x⟩
  cases aOpt
  · rfl
  · dsimp
    split <;> rfl

/-- Reassignment never changes the image component. -/
theorem reassign_img {α : Type} (records : List (Option String × String × α))
    (r : Option String × String × α) : (reassign records r).2.2 = r.2.2 := by
  unfold reassign
  rcases r with ⟨aOpt, g, x⟩
  cases aOpt
  · rfl
  · dsimp
    split <;> rfl

/-- The dedup fold never empties a non-empty accumulator. -/
theorem foldl_firstOccs_ne_nil (l : List String) :
    ∀ acc : List String, acc ≠ [] →
      l.foldl (fun acc g => if g ∈ acc then acc else acc ++ [g]) acc ≠ [] := by
  induction l with
  | nil => exact fun acc h => h
  | cons g rest ih =>
    intro acc h
    simp only [List.foldl_cons]
    split
    · exact ih acc h
    · exact ih (acc ++ [g]) (by simp)

/-- First occurrences of a non-empty list are non-empty. -/
theorem firstOccs_ne_nil (gs : List String) (h : gs ≠ []) : firstOccs gs ≠ [] := by
  unfold firstOccs
  cases gs with
  | nil => exact absurd rfl h
  | cons g rest =>
    simp only [List.foldl_cons]
    have h1 : (if g ∈ ([] : List String) then ([] : List String) else [] ++ [g]) = [g] := by
      simp
    rw [h1]
    exact foldl_firstOccs_ne_nil rest [g] (by simp)

/-- A fold whose step preserves `some` stays `some`. -/
theorem foldl_isSome {f : Option String → String → Option String}
    (hf : ∀ b g, ∃ c, f (some b) g = some c) (l : List String) (b : String) :
    ∃ c, l.foldl f (some b) = some c := by
  induction l generalizing b with
  | nil => exact ⟨b, rfl⟩
  | cons g rest ih =>
    rcases hf b g with ⟨c, hc⟩
    simp only [List.foldl_cons, hc]
    exact ih c

/-- A non-empty genre list has a majority genre. -/
theorem majorityList_isSome (gs : List String) (h : gs ≠ []) :
    ∃ ma, majorityList gs = some ma := by
  unfold majorityList
  rcases hfo : firstOccs gs with _ | ⟨g, rest⟩
  · exact absurd hfo (firstOccs_ne_nil gs h)
  · simp only [List.foldl_cons]
    exact foldl_isSome (fun b g' => by dsimp; split <;> [exact ⟨g', rfl⟩; exact ⟨b, rfl⟩])
      rest g

/-- The dedup fold fixes `[ma]` on a constant list. -/
theorem foldl_dedup_replicate (j : ℕ) (ma : String) :
    (List.replicate j ma).foldl (fun acc g => if g ∈ acc then acc else acc ++ [g]) [ma] =
      [ma] := by
  induction j with
  | zero => rfl
  | succ n ih =>
    simp only [List.replicate_succ, List.foldl_cons]
    rw [if_pos (by simp)]
    exact ih

/-- The majority of a constant non-empty genre list is that genre. -/
theorem majorityList_replicate (k : ℕ) (hk : 0 < k) (ma : String) :
    majorityList (List.replicate k ma) = some ma := by
  cases k with
  | zero => omega
  | succ j =>
    unfold majorityList
    have hfo : firstOccs (List.replicate (j + 1) ma) = [ma] := by
      unfold firstOccs
      simp only [List.replicate_succ, List.foldl_cons]
      have h1 : (if ma ∈ ([] : List String) then ([] : List String) else [] ++ [ma]) = [ma] := by
        simp
      rw [h1]
      exact foldl_dedup_replicate j ma
    rw [hfo]
    rfl

/-- A record with artist `a` makes that artist's genre list non-empty. -/
theorem genresOf_ne_nil {α : Type} {records : List (Option String × String × α)}
    {a : String} (r : Option String × String × α) (hr : r ∈ records)
    (hfst : r.1 = some a) : genresOf records a ≠ [] := by
  unfold genresOf
  intro hnil
  rw [List.map_eq_nil_iff] at hnil
  have : r ∈ records.filter (fun r => r.1 == some a) :=
    List.mem_filter.mpr ⟨hr, by simp [hfst]⟩
  rw [hnil] at this
  cases this

/-- After one majority pass, an artist's genre list is constantly their
majority genre. -/
theorem genresOf_assign_major {α : Type} (records : List (Option String × String × α))
    (a : String) (ha : a ≠ "") {ma : String}
    (hma : majorityList (genresOf records a) = some ma) :
    genresOf (records.map (reassign records)) a =
      List.replicate (genresOf records a).length ma := by
  unfold genresOf
  rw [List.filter_map, List.map_map]
  rw [List.filter_congr (fun r _ => by
    show ((fun r => r.1 == some a) ∘ reassign records) r = (r.1 == some a)
    rw [Function.comp_apply, reassign_fst])]
  have hmem : ∀ r ∈ records.filter (fun r => r.1 == some a),
      ((fun r => r.2.1) ∘ reassign records) r = ma := by
    intro r hrf
    have hfst : r.1 = some a := by
      have := List.of_mem_filter hrf
      simpa using this
    rw [Function.comp_apply]
    unfold reassign
    rw [hfst]
    dsimp
    rw [if_neg ha, hma]
    rfl
  rw [List.map_congr_left hmem, List.map_const', List.length_map]

/-- Reassignment of a record without an artist is the identity. -/
theorem reassign_none {α : Type} (recs : List (Option String × String × α))
    (g : String) (x : α) : reassign recs (none, g, x) = (none, g, x) := rfl

/-- Reassignment of a record with a blank artist is the identity. -/
theorem reassign_empty {α : Type} (recs : List (Option String × String × α))
    (g : String) (x : α) : reassign recs (some "", g, x) = (some "", g, x) := by
  unfold reassign
  dsimp

/-- Reassignment of a record with a proper artist substitutes that artist's
majority genre. -/
theorem reassign_some {α : Type} (recs : List (Option String × String × α))
    (a : String) (ha : ¬ a = "") (g : String) (x : α) :
    reassign recs (some a, g, x) =
      (some a, (majorityList (genresOf recs a)).getD g, x) := by
  unfold reassign
  dsimp
  rw [if_neg ha]

/-- C6: the per-artist majority aggregation is idempotent — re-running the
aggregator on its own output (each record now carrying its assigned
majority genre) changes nothing. -/
theorem assign_major_idempotent {α : Type} (records : List (Option String × String × α)) :
    assign_major (assign_major records) = assign_major records := by
  unfold assign_major
  rw [List.map_map]
  apply List.map_congr_left
  rintro ⟨aOpt, g, x⟩ hr
  rw [Function.comp_apply]
  cases aOpt with
  | none => rw [reassign_none, reassign_none]
  | some a =>
    by_cases ha : a = ""
    · subst ha
      rw [reassign_empty, reassign_empty]
    · have hgs : genresOf records a ≠ [] := genresOf_ne_nil (some a, g, x) hr rfl
      rcases majorityList_isSome _ hgs with ⟨ma, hma⟩
      have hlen : 0 < (genresOf records a).length := List.length_pos.mpr hgs
      rw [reassign_some records a ha g x, hma]
      simp only [Option.getD_some]
      rw [reassign_some _ a ha ma x, genresOf_assign_major records a ha hma,
        majorityList_replicate _ hlen ma]
      simp only [Option.getD_some]

/-! ### Price-sheet grouping (claims C7, C8) -/

/-- Lookup through an in-place update of the entries at one key. -/
theorem lookupA_map_upd {α : Type} (l : List (String × α)) (k0 : String) (f : α → α)
    (g : String) :
    lookupA (l.map fun e => if e.1 == k0 then (e.1, f e.2) else e) g =
      if g = k0 then (lookupA l g).map f else lookupA l g := by
  induction l with
  | nil => split <;> rfl
  | cons e rest ih =>
    rw [List.map_cons, lookupA_cons, lookupA_cons]
    have hfst : (if (e.1 == k0) = true then (e.1, f e.2) else e).1 = e.1 := by
      split <;> rfl
    rw [hfst]
    by_cases hek : e.1 = g
    · by_cases hgk : g = k0
      · have h1 : (e.1 == k0) = true := beq_iff_eq.mpr (hek.trans hgk)
        simp [hek, h1, hgk]
      · have h1 : (e.1 == k0) = false := beq_eq_false_iff_ne.mpr (by rw [hek]; exact hgk)
        simp [hek, h1, hgk]
    · simp only [beq_eq_false_iff_ne.mpr hek, Bool.false_eq_true, if_false]
      rw [ih]

/-- Lookup through an append searches the left part first. -/
theorem lookupA_append {α : Type} (l₁ l₂ : List (String × α)) (g : String) :
    lookupA (l₁ ++ l₂) g =
      match lookupA l₁ g with
      | some v => some v
      | none => lookupA l₂ g := by
  induction l₁ with
  | nil => rfl
  | cons e rest ih =>
    rw [List.cons_append, lookupA_cons, lookupA_cons]
    cases hc : (e.1 == g) with
    | true => simp
    | false =>
      simp only [Bool.false_eq_true, if_false]
      exact ih

/-- One grouping-loop step, described through lookup: the row's key gets a
bumped line (or a fresh one), every other key is untouched. -/
theorem lookupA_insert_row (groups : List (String × SheetItem)) (r : CsvRow) (k : String) :
    lookupA (insert_row groups r) k =
      if rowKey r = k then
        some (match lookupA groups k with
          | some it =>
            { it with
              qty := it.qty + 1,
              variant_release_ids :=
                it.variant_release_ids ++ " " ++ sheet_norm r.release_id }
          | none => initItem r)
      else lookupA groups k := by
  simp only [insert_row]
  split
  · rename_i hany
    rw [lookupA_map_upd groups (rowKey r)
      (fun v =>
        { v with
          qty := v.qty + 1,
          variant_release_ids :=
            v.variant_release_ids ++ " " ++ sheet_norm r.release_id }) k]
    by_cases hk : rowKey r = k
    · rw [if_pos hk.symm, if_pos hk]
      have hsome : (lookupA groups k).isSome = true := by
        cases hl : lookupA groups k with
        | some _ => rfl
        | none =>
          rw [← hk] at hl
          rcases List.any_eq_true.mp hany with ⟨e, he, hp⟩
          exact absurd hp (List.find?_eq_none.mp (Option.map_eq_none'.mp hl) e he)
      obtain ⟨it, hit⟩ := Option.isSome_iff_exists.mp hsome
      rw [hit]
      rfl
    · rw [if_neg (fun hkk => hk hkk.symm), if_neg hk]
  · rename_i hany
    rw [lookupA_append]
    by_cases hk : rowKey r = k
    · have hnone : lookupA groups k = none := by
        cases hl : lookupA groups k with
        | none => rfl
        | some it =>
          rcases Option.map_eq_some'.mp hl with ⟨e, he, _⟩
          have hp := @find?_pred _ (fun e => e.1 == k) groups e he
          exact absurd (List.any_eq_true.mpr
            ⟨e, List.mem_of_find?_eq_some he, by rw [hk]; exact hp⟩) hany
      rw [hnone, if_pos hk, lookupA_cons]
      simp only [beq_iff_eq.mpr hk, if_true]
      rfl
    · rw [if_neg hk]
      cases hl : lookupA groups k with
      | some it => rfl
      | none =>
        rw [lookupA_cons]
        simp only [beq_eq_false_iff_ne.mpr hk, Bool.false_eq_true, if_false]
        rfl

/-- Folding no further rows changes nothing. -/
theorem bumpMany_nil (it : SheetItem) : bumpMany it [] = it := by
  cases it
  simp [bumpMany]

/-- Folding one more row then the rest equals bumping once then folding. -/
theorem bumpMany_cons (it : SheetItem) (r : CsvRow) (ms : List CsvRow) :
    bumpMany it (r :: ms) =
      bumpMany
        { it with
          qty := it.qty + 1,
          variant_release_ids :=
            it.variant_release_ids ++ " " ++ sheet_norm r.release_id } ms := by
  cases it with
  | mk ar ti q ids =>
    unfold bumpMany
    simp only [List.length_cons, List.foldl_cons]
    have : q + (ms.length + 1) = q + 1 + ms.length := by omega
    rw [this]

/-- The grouping fold, characterized per key: the result at `k` is the fold
of all processed rows with key `k` over the initial content of `k`. -/
theorem foldl_insert_lookup (rs : List CsvRow) (groups : List (String × SheetItem))
    (k : String) :
    lookupA (rs.foldl insert_row groups) k =
      match lookupA groups k, rs.filter (fun r => rowKey r == k) with
      | some it, ms => some (bumpMany it ms)
      | none, [] => none
      | none, m :: ms => some (bumpMany (initItem m) ms) := by
  induction rs generalizing groups with
  | nil =>
    simp only [List.foldl_nil, List.filter_nil]
    cases hl : lookupA groups k with
    | some it => simp only [bumpMany_nil]
    | none => rfl
  | cons r rest ih =>
    simp only [List.foldl_cons, List.filter_cons]
    rw [ih (insert_row groups r), lookupA_insert_row]
    by_cases hk : rowKey r = k
    · rw [if_pos hk]
      simp only [beq_iff_eq.mpr hk, if_true]
      cases hl : lookupA groups k with
      | some it => simp only [bumpMany_cons]
      | none => rfl
    · rw [if_neg hk]
      simp only [beq_eq_false_iff_ne.mpr hk, Bool.false_eq_true, if_false]

/-- One grouping-loop step keeps the keys pairwise distinct. -/
theorem insert_row_keys_nodup (groups : List (String × SheetItem)) (r : CsvRow)
    (h : (groups.map Prod.fst).Nodup) :
    ((insert_row groups r).map Prod.fst).Nodup := by
  simp only [insert_row]
  split
  · rw [List.map_map]
    rw [List.map_congr_left (fun e _ => by
      show (Prod.fst ∘ fun e =>
        if (e.1 == rowKey r) = true then
          (e.1, { e.2 with
                  qty := e.2.qty + 1,
                  variant_release_ids :=
                    e.2.variant_release_ids ++ " " ++ sheet_norm r.release_id })
        else e) e = Prod.fst e
      rw [Function.comp_apply]
      split <;> rfl)]
    exact h
  · rename_i hany
    rw [List.map_append]
    simp only [List.map_cons, List.map_nil]
    rw [List.nodup_append]
    refine ⟨h, List.nodup_singleton _, ?_⟩
    intro x hx hx1
    rcases List.mem_map.mp hx with ⟨e, he, hfst⟩
    rcases List.mem_singleton.mp hx1 with rfl
    have hb : (groups.any fun e => e.1 == rowKey r) = true :=
      List.any_eq_true.mpr ⟨e, he, beq_iff_eq.mpr hfst⟩
    exact absurd hb hany

/-- The grouping pass keeps one line per key. -/
theorem build_groups_keys_nodup (rows : List CsvRow) :
    ((build_groups rows).map Prod.fst).Nodup := by
  unfold build_groups
  have h : ∀ (rs : List CsvRow) (groups : List (String × SheetItem)),
      (groups.map Prod.fst).Nodup →
      ((rs.foldl insert_row groups).map Prod.fst).Nodup := by
    intro rs
    induction rs with
    | nil => exact fun _ hg => hg
    | cons r rest ih => exact fun g hg => ih _ (insert_row_keys_nodup g r hg)
  exact h _ [] (by simp)

/-- Left folds of blank-separated appends are blank-separated joins. -/
theorem foldl_spaceJoin (ms : List String) (x : String) :
    ms.foldl (fun s r => s ++ " " ++ r) x = spaceJoin (x :: ms) := by
  induction ms generalizing x with
  | nil => rfl
  | cons y t ih =>
    simp only [List.foldl_cons]
    rw [ih (x ++ " " ++ y)]
    cases t with
    | nil => rfl
    | cons z t' =>
      show x ++ " " ++ y ++ " " ++ spaceJoin (z :: t') =
        x ++ " " ++ (y ++ " " ++ spaceJoin (z :: t'))
      simp [String.append_assoc]

/-- C7: the price-sheet aggregator produces exactly one line per normalized
artist/title key — rows differing only in case or whitespace share that key
and collapse into it — and that line carries as quantity the number of kept
rows with the key and accumulates all their release ids, blank-separated,
in row order. -/
theorem build_groups_spec (rows : List CsvRow) (k : String) :
    ((build_groups rows).map Prod.fst).Nodup ∧
    lookupA (build_groups rows) k =
      (match kept_rows rows k with
       | [] => none
       | m :: ms =>
         some { artist := sheet_norm m.artist, title := sheet_norm m.title,
                qty := 1 + ms.length,
                variant_release_ids :=
                  spaceJoin ((m :: ms).map fun r => sheet_norm r.release_id) }) := by
  refine ⟨build_groups_keys_nodup rows, ?_⟩
  unfold build_groups kept_rows
  rw [foldl_insert_lookup]
  cases hk : ((rows.filter keep_row).filter fun r => rowKey r == k) with
  | nil => rfl
  | cons m ms =>
    show some (bumpMany (initItem m) ms) = _
    unfold bumpMany initItem
    simp only [List.map_cons]
    rw [← List.foldl_map (fun r : CsvRow => sheet_norm r.release_id)
      (fun s r => s ++ " " ++ r) ms (sheet_norm m.release_id)]
    rw [foldl_spaceJoin]

/-- The claim's concrete pair: case/whitespace variants of The Beatles'
Revolver collapse into one line with quantity two and both release ids. -/
theorem build_groups_beatles :
    build_groups [beatles_row1, beatles_row2] =
      [("the beatles||revolver",
        { artist := "The Beatles", title := "Revolver", qty := 2,
          variant_release_ids := "111 222" })] ∧
    rowKey beatles_row1 = rowKey beatles_row2 := by
  refine ⟨by decide, by decide⟩

/-- The row filter, spelled out: exact case-insensitive folder match
`"for sale"`, a non-empty release id, and not both artist and title blank. -/
theorem keep_row_iff (r : CsvRow) :
    keep_row r = true ↔
      (strLower (sheet_norm r.folder) = "for sale" ∧
       sheet_norm r.release_id ≠ "" ∧
       ¬(sheet_norm r.artist = "" ∧ sheet_norm r.title = "")) := by
  unfold keep_row
  simp [and_assoc]
  intro _ _
  tauto

/-- C8 (amended): the aggregator keeps a row exactly when its trimmed
folder equals `"for sale"` case-insensitively (an exact match — variants
such as `"For Sale - LPs"` are dropped), its trimmed release id is
non-empty, and artist and title are not both blank. -/
theorem build_groups_keep_iff (r : CsvRow) :
    build_groups [r] ≠ [] ↔
      (strLower (sheet_norm r.folder) = "for sale" ∧
       sheet_norm r.release_id ≠ "" ∧
       ¬(sheet_norm r.artist = "" ∧ sheet_norm r.title = "")) := by
  rw [← keep_row_iff]
  unfold build_groups
  cases hkeep : keep_row r with
  | true =>
    have hfilter : [r].filter keep_row = [r] := by simp [hkeep]
    rw [hfilter]
    simp only [List.foldl_cons, List.foldl_nil, insert_row]
    simp
  | false =>
    have hfilter : [r].filter keep_row = [] := by simp [hkeep]
    rw [hfilter]
    simp

/-- C8 counterexample: a row whose folder merely starts with `"For Sale"`
(here `"For Sale - LPs"`), with id, artist and title present, is dropped
by the aggregator — the folder filter is an exact match, not a prefix
match. -/
theorem for_sale_exact_match_cex :
    build_groups [lps_row] = [] ∧
    List.isPrefixOf "for sale".data (strLower (sheet_norm lps_row.folder)).data = true ∧
    sheet_norm lps_row.release_id ≠ "" ∧
    ¬(sheet_norm lps_row.artist = "" ∧ sheet_norm lps_row.title = "") := by
  refine ⟨by decide, by decide, by decide, by decide⟩

/-! ### Cover conservation (claim C10) -/

/-- Covers of a cons cell. -/
theorem coversM_cons {α : Type} (e : String × List α) (m : List (String × List α)) :
    coversM (e :: m) = (e.2 : Multiset α) + coversM m := by
  simp [coversM]

/-- Covers of an append. -/
theorem coversM_append {α : Type} (m₁ m₂ : List (String × List α)) :
    coversM (m₁ ++ m₂) = coversM m₁ + coversM m₂ := by
  simp [coversM, List.map_append]

/-- Extending a bucket adds exactly the new covers to the map's multiset. -/
theorem coversM_extendA {α : Type} (m : List (String × List α)) (k : String)
    (v : List α) : coversM (extendA m k v) = coversM m + (v : Multiset α) := by
  induction m with
  | nil => simp [extendA, coversM]
  | cons e rest ih =>
    simp only [extendA]
    split
    · rw [coversM_cons, coversM_cons]
      rw [show ((e.2 ++ v : List α) : Multiset α) = (e.2 : Multiset α) + (v : Multiset α)
        from (Multiset.coe_add _ _).symm]
      abel
    · rw [coversM_cons, coversM_cons, ih]
      rw [add_assoc]

/-- The map's multiset is the flattening of its buckets. -/
theorem coversM_eq_flatten {α : Type} (m : List (String × List α)) :
    coversM m = (((m.map Prod.snd).flatten : List α) : Multiset α) := by
  induction m with
  | nil => rfl
  | cons e rest ih =>
    rw [coversM_cons, ih]
    simp only [List.map_cons, List.flatten_cons]
    rw [show ((e.2 ++ (rest.map Prod.snd).flatten : List α) : Multiset α) =
      (e.2 : Multiset α) + (((rest.map Prod.snd).flatten : List α) : Multiset α)
      from (Multiset.coe_add _ _).symm]

/-- A filter and its complement partition the map's multiset. -/
theorem coversM_filter_partition {α : Type} (m : List (String × List α))
    (p : String × List α → Bool) :
    coversM (m.filter p) + coversM (m.filter fun e => !(p e)) = coversM m := by
  induction m with
  | nil => simp [coversM]
  | cons e rest ih =>
    rw [List.filter_cons, List.filter_cons]
    cases hp : p e
    · simp only [Bool.false_eq_true, if_false, Bool.not_false, if_true]
      rw [coversM_cons, coversM_cons, ← ih]
      abel
    · simp only [if_true, Bool.not_true, Bool.false_eq_true, if_false]
      rw [coversM_cons, coversM_cons, ← ih]
      abel

/-- The keys after extending a bucket. -/
theorem keys_extendA {α : Type} (m : List (String × List α)) (k : String) (v : List α) :
    (extendA m k v).map Prod.fst =
      if k ∈ m.map Prod.fst then m.map Prod.fst else m.map Prod.fst ++ [k] := by
  induction m with
  | nil => simp [extendA]
  | cons e rest ih =>
    simp only [extendA]
    split
    · rename_i h
      have : k = e.1 := (beq_iff_eq.mp h).symm
      simp [← this]
    · rename_i h
      have hne : k ≠ e.1 := fun hk => h (beq_iff_eq.mpr hk.symm)
      simp only [List.map_cons, ih]
      by_cases hk : k ∈ rest.map Prod.fst
      · simp [hk, hne]
      · simp [hk, hne]

/-- Extending a bucket keeps keys pairwise distinct. -/
theorem nodup_keys_extendA {α : Type} (m : List (String × List α)) (k : String)
    (v : List α) (h : (m.map Prod.fst).Nodup) :
    ((extendA m k v).map Prod.fst).Nodup := by
  rw [keys_extendA]
  split
  · exact h
  · rename_i hk
    rw [List.nodup_append]
    exact ⟨h, List.nodup_singleton _,
      fun x hx hx1 => hk (List.mem_singleton.mp hx1 ▸ hx)⟩

/-- The bucket map built from records has pairwise-distinct keys. -/
theorem bucketize_keys_nodup {α : Type} (records : List (Option String × String × α)) :
    ((bucketize records).map Prod.fst).Nodup := by
  unfold bucketize
  have h : ∀ (rs : List (Option String × String × α)) (acc : List (String × List α)),
      (acc.map Prod.fst).Nodup →
      ((rs.foldl (fun acc r => extendA acc r.2.1 [r.2.2]) acc).map Prod.fst).Nodup := by
    intro rs
    induction rs with
    | nil => exact fun _ hg => hg
    | cons r rest ih => exact fun acc hg => ih _ (nodup_keys_extendA _ _ _ hg)
  exact h _ [] (by simp)

/-- The composite split keeps keys pairwise distinct. -/
theorem split_buckets_keys_nodup {α : Type} (m : List (String × List α)) :
    ((split_buckets m).map Prod.fst).Nodup := by
  unfold split_buckets
  have h : ∀ (l : List (String × List α)) (acc : List (String × List α)),
      (acc.map Prod.fst).Nodup →
      ((l.foldl split_step acc).map Prod.fst).Nodup := by
    intro l
    induction l with
    | nil => exact fun _ hg => hg
    | cons e rest ih =>
      intro acc hg
      apply ih
      unfold split_step
      split
      · exact nodup_keys_extendA _ _ _ (nodup_keys_extendA _ _ _ hg)
      · exact nodup_keys_extendA _ _ _ hg
  exact h m [] (by simp)

/-- Bucketizing preserves the multiset of images. -/
theorem coversM_bucketize {α : Type} (records : List (Option String × String × α)) :
    coversM (bucketize records) =
      ((records.map fun r => r.2.2 : List α) : Multiset α) := by
  unfold bucketize
  have h : ∀ (rs : List (Option String × String × α)) (acc : List (String × List α)),
      coversM (rs.foldl (fun acc r => extendA acc r.2.1 [r.2.2]) acc) =
        coversM acc + ((rs.map fun r => r.2.2 : List α) : Multiset α) := by
    intro rs
    induction rs with
    | nil =>
      intro acc
      simp
    | cons r rest ih =>
      intro acc
      simp only [List.foldl_cons, List.map_cons]
      rw [ih, coversM_extendA]
      rw [show (r.2.2 :: (rest.map fun x => x.2.2) : List α) =
        [r.2.2] ++ rest.map fun x => x.2.2 from rfl, ← Multiset.coe_add]
      abel
  rw [h records []]
  simp [coversM]

/-- The composite split preserves the multiset of covers. -/
theorem coversM_split_buckets {α : Type} (m : List (String × List α)) :
    coversM (split_buckets m) = coversM m := by
  unfold split_buckets
  have h : ∀ (l : List (String × List α)) (acc : List (String × List α)),
      coversM (l.foldl split_step acc) = coversM acc + coversM l := by
    intro l
    induction l with
    | nil =>
      intro acc
      simp [coversM]
    | cons e rest ih =>
      intro acc
      simp only [List.foldl_cons]
      rw [ih, coversM_cons]
      have hstep : coversM (split_step acc e) = coversM acc + (e.2 : Multiset α) := by
        unfold split_step
        split
        · rw [coversM_extendA, coversM_extendA]
          rw [add_assoc,
            show ((e.2.take (max 1 (2 * e.2.length / 3)) : List α) : Multiset α) +
              ((e.2.drop (max 1 (2 * e.2.length / 3)) : List α) : Multiset α) =
              (e.2 : Multiset α)
            from by rw [Multiset.coe_add, List.take_append_drop]]
        · rw [coversM_extendA]
      rw [hstep, add_assoc]
  rw [h m []]
  simp [coversM]

/-- The merge step `addMisc` adds exactly the merged covers. -/
theorem coversM_addMisc {α : Type} (big : List (String × List α)) (misc : List α)
    (hnd : (big.map Prod.fst).Nodup) :
    coversM (addMisc big misc) = coversM big + (misc : Multiset α) := by
  unfold addMisc
  split
  · rename_i hany
    induction big with
    | nil => simp at hany
    | cons e rest ih =>
      rw [List.map_cons, List.nodup_cons] at hnd
      rw [List.map_cons, coversM_cons, coversM_cons]
      cases hc : (e.1 == "Misc") with
      | true =>
        simp only [hc, if_true]
        have hrest : rest.map (fun e => if e.1 == "Misc" then (e.1, e.2 ++ misc) else e) =
            rest := by
          conv_rhs => rw [← List.map_id rest]
          apply List.map_congr_left
          intro x hx
          have hxne : (x.1 == "Misc") = false := by
            apply beq_eq_false_iff_ne.mpr
            intro hxm
            apply hnd.1
            rw [beq_iff_eq.mp hc, ← hxm]
            exact List.mem_map_of_mem Prod.fst hx
          simp [hxne]
        rw [hrest]
        rw [show ((e.2 ++ misc : List α) : Multiset α) =
          (e.2 : Multiset α) + (misc : Multiset α) from (Multiset.coe_add _ _).symm]
        abel
      | false =>
        simp only [hc, Bool.false_eq_true, if_false]
        have hany' : (rest.any fun e => e.1 == "Misc") = true := by
          rw [List.any_cons, hc] at hany
          simpa using hany
        rw [ih hnd.2 hany', add_assoc]
  · rw [coversM_append]
    simp [coversM]

/-- The tiny-genre merge preserves the multiset of covers. -/
theorem merge_tiny_conserves {α : Type} (m : List (String × List α))
    (hnd : (m.map Prod.fst).Nodup) : coversM (merge_tiny m) = coversM m := by
  have hpart := coversM_filter_partition m (fun e => decide (e.2.length < 36))
  have hmisc : ((misc_of m : List α) : Multiset α) =
      coversM (m.filter fun e => decide (e.2.length < 36)) := by
    rw [coversM_eq_flatten]
    rfl
  unfold merge_tiny
  split
  · rename_i hempty
    have h0 : misc_of m = [] := by simpa using hempty
    have htiny : coversM (m.filter fun e => decide (e.2.length < 36)) = 0 := by
      rw [← hmisc, h0]
      rfl
    unfold big_of
    rw [← hpart, htiny, zero_add]
  · unfold big_of
    rw [coversM_addMisc _ _ (hnd.sublist ((List.filter_sublist m).map Prod.fst))]
    rw [hmisc, add_comm, hpart]

/-- C10: the genre pipeline conserves covers — the multiset of image paths
across all buckets handed to the renderer (the `"Misc"` bucket included)
equals the multiset of image paths of the loaded records: the majority
override, the composite split and the tiny-genre merge neither drop nor
duplicate a cover. -/
theorem genre_pipeline_conserves_covers {α : Type}
    (records : List (Option String × String × α)) :
    coversM (merge_tiny (split_buckets (bucketize (assign_major records)))) =
      ((records.map fun r => r.2.2 : List α) : Multiset α) := by
  rw [merge_tiny_conserves _ (split_buckets_keys_nodup _), coversM_split_buckets,
    coversM_bucketize]
  congr 1
  unfold assign_major
  rw [List.map_map]
  apply List.map_congr_left
  intro r _
  rw [Function.comp_apply, reassign_img]
